import Mathlib

/-!
Verification of the bundlewrap core: the item dependency resolver
(`bundlewrap/deps.py`) and the metadata fixed-point engine
(`bundlewrap/metagen.py`), shallowly embedded in Lean.

Python items are mutable objects; we model them as immutable records
collected in a list, keyed by their `id` (the resolver checks id
collisions up front, so ids are assumed unique).  Python `set`s of
strings are modelled as duplicate-free lists (`pyInsert`), and
`sorted(...)` as a stable insertion sort over code points, so that all
definitions reduce in the kernel.
-/

namespace Bundlewrap

/-- Split a character list at the first occurrence of `c`; `none` when
`c` does not occur.  Models Python `s.split(c, 1)` failing to produce
two parts. -/
def splitFirst (c : Char) : List Char → Option (List Char × List Char)
  | [] => none
  | x :: xs =>
    if x = c then some ([], xs)
    else (splitFirst c xs).map (fun p => (x :: p.1, p.2))

/-- Python `selector.split(":", 1)` as a partial function returning the
part before and the part after the first colon. -/
def splitSelector (s : String) : Option (String × String) :=
  (splitFirst ':' s.data).map (fun p => (String.mk p.1, String.mk p.2))

/-- Python `dep.split(":", 1)[0]`: everything before the first colon, or
the whole string if there is none. -/
def selectorKind (s : String) : String :=
  match splitFirst ':' s.data with
  | none => s
  | some p => String.mk p.1

/-- Code-point comparison of characters, as Python compares strings. -/
def charLe (a b : Char) : Bool :=
  a.toNat ≤ b.toNat

/-- Lexicographic order on character lists (Python string order). -/
def charsLe : List Char → List Char → Bool
  | [], _ => true
  | _ :: _, [] => false
  | a :: as, b :: bs =>
    if a.toNat < b.toNat then true
    else if b.toNat < a.toNat then false
    else charsLe as bs

/-- Python `s1 <= s2` on strings, by code points. -/
def strLe (a b : String) : Bool :=
  charsLe a.data b.data

/-- Insert into a sorted list, after all elements `y` with `le y x`
(stable insertion). -/
def pyInsertSorted (le : α → α → Bool) (x : α) : List α → List α
  | [] => [x]
  | y :: ys => if le y x then y :: pyInsertSorted le x ys else x :: y :: ys

/-- Stable insertion sort; models Python `sorted(...)` with the given
comparison. -/
def pySort (le : α → α → Bool) (l : List α) : List α :=
  l.foldl (fun acc x => pyInsertSorted le x acc) []

/-- Add an element to a Python set modelled as a duplicate-free list. -/
def pyInsert [DecidableEq α] (x : α) (l : List α) : List α :=
  if x ∈ l then l else l ++ [x]

/-- Union of a Python set (list model) with a list of new elements. -/
def pyUnion [DecidableEq α] (l : List α) (xs : List α) : List α :=
  xs.foldl (fun acc x => pyInsert x acc) l

/-- Remove the first occurrence of `x` (Python `list.remove` inside
`suppress(ValueError)`). -/
def pyRemove [DecidableEq α] (x : α) : List α → List α
  | [] => []
  | y :: ys => if y = x then ys else y :: pyRemove x ys

/-- Canned action catalog entry of an item.  Modelled from the spec:
the item classes (not under the sources at hand) expose
`get_canned_actions() : name → attrs`; only the dependency-relevant
attributes are kept. -/
structure CannedAction where
  name : String
  needs : List String
  triggers : List String
  deriving DecidableEq

/-- A configuration item with its static attributes and the derived
fields filled in by the resolver (`_deps`, `_flattened_deps`, ...).
`flattened_deps = none` models the absence of the `_flattened_deps`
attribute before `_flatten_deps_for_item` has visited the item. -/
structure Item where
  id : String
  bundle : String
  itemTypeName : String
  tags : List String
  needs : List String
  needed_by : List String
  triggers : List String
  triggered_by : List String
  precedes : List String
  preceded_by : List String
  triggered : Bool
  cascade_skip : Bool
  canned_actions : List CannedAction
  deps : List String
  reverse_deps : List String
  concurrency_deps : List String
  flattened_deps : Option (List String)
  incoming_deps : List String
  precedes_items : List String
  deriving DecidableEq

/-- An item with only static attributes set; derived fields empty. -/
def Item.mk0 (id bundle kind : String) : Item :=
  { id := id, bundle := bundle, itemTypeName := kind, tags := [],
    needs := [], needed_by := [], triggers := [], triggered_by := [],
    precedes := [], preceded_by := [], triggered := false,
    cascade_skip := true, canned_actions := [], deps := [],
    reverse_deps := [], concurrency_deps := [], flattened_deps := none,
    incoming_deps := [], precedes_items := [] }

/-- Errors raised by the resolver passes. -/
inductive BwError where
  /-- `ValueError("invalid item selector: ...")` from `resolve_selector`. -/
  | invalidSelector (selector : String)
  /-- `NoSuchItem` from `find_item`. -/
  | noSuchItem (itemId : String)
  /-- `ItemDependencyError` naming the depending item and the selector. -/
  | itemDependencyError (itemId dep : String)
  /-- `BundleError`: triggered item uses `preceded_by`. -/
  | precededByOnTriggered (itemId : String)
  /-- `BundleError`: item triggered by another lacks the `triggered` attribute. -/
  | triggerMissingAttr (itemId byItemId : String)
  /-- `BundleError`: item named in `preceded_by` lacks the `triggered` attribute. -/
  | precedesMissingAttr (itemId byItemId : String)
  /-- `BundleError` from the per-item bundle-collision precheck. -/
  | bundleCollision (itemId : String)
  /-- `BundleError` from the per-item self-dependency precheck. -/
  | loopbackDependency (itemId : String)
  /-- Recursion fuel exhausted (cannot happen with adequate fuel). -/
  | outOfFuel
  deriving DecidableEq

/-- Whether an error is one of the `BundleError` variants. -/
def BwError.isBundleError : BwError → Bool
  | .precededByOnTriggered _ => true
  | .triggerMissingAttr _ _ => true
  | .precedesMissingAttr _ _ => true
  | .bundleCollision _ => true
  | .loopbackDependency _ => true
  | _ => false

/-- Result of `resolve_selector`: Python returns either a lazy `filter`
object (for `bundle:`, `tag:` and `KIND:` selectors) or a real one-item
list (for `KIND:NAME`).  A `filter` object is an iterator: once
materialised with `list(...)` it is exhausted and iterates no further
elements. -/
inductive SelResult (α : Type) where
  | iter (elems : List α)
  | lst (elems : List α)
  deriving DecidableEq

/-- The elements produced by the first full materialisation. -/
def SelResult.elems : SelResult α → List α
  | .iter es => es
  | .lst es => es

/-- The elements a second iteration would produce after `list(...)` has
already consumed the result once: none for an exhausted `filter`,
all of them for a real list. -/
def SelResult.elemsAfterList : SelResult α → List α
  | .iter _ => []
  | .lst es => es

/-- `find_item`: the first item with the given id. -/
def find_item (item_id : String) (items : List Item) : Except BwError Item :=
  match items.filter (fun item => item.id = item_id) with
  | [] => .error (.noSuchItem item_id)
  | item :: _ => .ok item

/-- `resolve_selector`: all items matching the given selector.  Note the
`KIND:` branch of the source compares `ITEM_TYPE_NAME` with the empty
`selector_name`, not with `selector_type`. -/
def resolve_selector (selector : String) (items : List Item) :
    Except BwError (SelResult Item) :=
  match splitSelector selector with
  | none => .error (.invalidSelector selector)
  | some (selector_type, selector_name) =>
    if selector_type = "bundle" then
      .ok (.iter (items.filter (fun item => item.bundle = selector_name)))
    else if selector_type = "tag" then
      .ok (.iter (items.filter (fun item => selector_name ∈ item.tags)))
    else if selector_name = "" then
      .ok (.iter (items.filter (fun item => item.itemTypeName = selector_name)))
    else
      match find_item selector items with
      | .ok item => .ok (.lst [item])
      | .error e => .error e

/-- Look up the current value of an item by id. -/
def getItem (items : List Item) (iid : String) : Option Item :=
  items.find? (fun it => it.id = iid)

/-- Update the item with the given id in place. -/
def updateItem (iid : String) (f : Item → Item) (items : List Item) : List Item :=
  items.map (fun it => if it.id = iid then f it else it)

/-- Sequential processing with error propagation, used for the Python
`for` loops of the injection passes. -/
def foldE (f : α → List Item → Except BwError (List Item)) :
    List α → List Item → Except BwError (List Item)
  | [], items => .ok items
  | x :: rest, items =>
    match f x items with
    | .error e => .error e
    | .ok items' => foldE f rest items'

/-- The `for dep_item in dep_items:` loop of `_flatten_deps_for_item`:
recurse into a dep item that has no `_flattened_deps` yet, then merge
its flattened deps into the current item's set.  `flatF` is the
recursive call into `_flatten_deps_for_item` at one fuel level lower. -/
def processDepItems (flatF : String → List Item → Except BwError (List Item))
    (itemId : String) : List String → List Item → Except BwError (List Item)
  | [], items => .ok items
  | depId :: rest, items =>
    let step : Except BwError (List Item) :=
      match getItem items depId with
      | none => .ok items
      | some depItem =>
        if depItem.flattened_deps.isNone then
          flatF depId items
        else .ok items
    match step with
    | .error e => .error e
    | .ok items1 =>
      let fd := (((getItem items1 depId).map
        (fun i => i.flattened_deps)).getD none).getD []
      processDepItems flatF itemId rest
        (updateItem itemId (fun i =>
          { i with flattened_deps := some (pyUnion (i.flattened_deps.getD []) fd) })
          items1)

/-- The `for dep in item._deps.copy()` loop of `_flatten_deps_for_item`.
A selector that resolves to zero items is removed from `_deps`; a
missing single id raises `ItemDependencyError`.  Note that for
`bundle:`/`tag:`/kind selectors the Python `resolve_selector` result is
a `filter` iterator which `if list(dep_items):` exhausts, so the inner
`for dep_item in dep_items:` loop iterates `elemsAfterList` — nothing
unless the result was the real list of the single-id case. -/
def processDeps (flatF : String → List Item → Except BwError (List Item))
    (itemId : String) : List String → List Item → Except BwError (List Item)
  | [], items =>
    .ok (updateItem itemId
      (fun i => { i with
        flattened_deps := some (pySort strLe (i.flattened_deps.getD [])) }) items)
  | dep :: rest, items =>
    match resolve_selector dep items with
    | .error (.noSuchItem _) => .error (.itemDependencyError itemId dep)
    | .error e => .error e
    | .ok r =>
      if r.elems.isEmpty then
        processDeps flatF itemId rest
          (updateItem itemId (fun i => { i with deps := pyRemove dep i.deps }) items)
      else
        match processDepItems flatF itemId (r.elemsAfterList.map (fun i => i.id)) items with
        | .error e => .error e
        | .ok items2 => processDeps flatF itemId rest items2

/-- `_flatten_deps_for_item`: seeds `_flattened_deps` with the item's
direct `_deps` (as a set) and then walks those deps.  The `fuel`
argument bounds the recursion depth; it decreases exactly when recursing
into a not-yet-flattened item (the `hasattr` guard), so any fuel above
the number of unflattened items is adequate. -/
def flatten_deps_for_item : Nat → String → List Item → Except BwError (List Item)
  | 0, _, _ => .error .outOfFuel
  | f + 1, itemId, items =>
    match getItem items itemId with
    | none => .error .outOfFuel
    | some it =>
      let items1 := updateItem itemId
        (fun i => { i with flattened_deps := some (pyUnion [] i.deps) }) items
      processDeps (flatten_deps_for_item f) itemId it.deps items1

/-- The first loop of `_flatten_dependencies`: flatten every item that
has not been flattened yet, in list order. -/
def flatten_items_loop (fuel : Nat) (ids : List String) (items : List Item) :
    Except BwError (List Item) :=
  match ids with
  | [] => .ok items
  | iid :: rest =>
    match getItem items iid with
    | none => flatten_items_loop fuel rest items
    | some it =>
      if it.flattened_deps.isNone then
        match flatten_deps_for_item fuel iid items with
        | .error e => .error e
        | .ok items' => flatten_items_loop fuel rest items'
      else
        flatten_items_loop fuel rest items

/-- The second loop of `_flatten_dependencies`:
`item._incoming_deps = { other | item.id ∈ other._flattened_deps }`
(stored as item ids here). -/
def compute_incoming (items : List Item) : List Item :=
  items.map (fun it =>
    let inc := (items.filter (fun o => it.id ∈ o.flattened_deps.getD [])).map
      (fun o => o.id)
    { it with incoming_deps := inc })

/-- `_flatten_dependencies`. -/
def flatten_dependencies (items : List Item) : Except BwError (List Item) :=
  match flatten_items_loop (items.length + 1) (items.map (fun i => i.id)) items with
  | .error e => .error e
  | .ok items' => .ok (compute_incoming items')

/-- `_inject_canned_actions`.  Modelled from the spec where it relies on
the item classes (not in the sources at hand): each canned action
becomes a synthetic `Action` item with id `<item.id>:<name>` and
`triggered = true`, appended to the item list. -/
def inject_canned_actions (items : List Item) : List Item :=
  items ++ (items.map (fun it => it.canned_actions.map (fun ca =>
    let base := Item.mk0 (it.id ++ ":" ++ ca.name) it.bundle "action"
    { base with
        triggered := true, needs := ca.needs, deps := ca.needs,
        triggers := ca.triggers }))).flatten

/-- `_inject_reverse_triggers`: translate `triggered_by` into `triggers`
on the selected items and `precedes` into `preceded_by`. -/
def inject_reverse_triggers (items : List Item) : Except BwError (List Item) :=
  foldE (fun iid items =>
    match getItem items iid with
    | none => .ok items
    | some item =>
      match foldE (fun sel items =>
        match resolve_selector sel items with
        | .error (.noSuchItem _) => .error (.itemDependencyError item.id sel)
        | .error e => .error e
        | .ok r => .ok (r.elems.foldl (fun acc t =>
            updateItem t.id
              (fun x => { x with triggers := x.triggers ++ [item.id] }) acc) items)
        ) item.triggered_by items with
      | .error e => .error e
      | .ok items1 =>
        match getItem items1 iid with
        | none => .ok items1
        | some item1 =>
          foldE (fun sel items =>
            match resolve_selector sel items with
            | .error (.noSuchItem _) => .error (.itemDependencyError item1.id sel)
            | .error e => .error e
            | .ok r => .ok (r.elems.foldl (fun acc p =>
                updateItem p.id
                  (fun x => { x with preceded_by := x.preceded_by ++ [item1.id] }) acc)
                items)
            ) item1.precedes items1
  ) (items.map (fun i => i.id)) items

/-- The `add_dep` helper of `_inject_reverse_dependencies`: append
idempotently to `_deps` and `_reverse_deps`. -/
def add_dep (dep : String) (it : Item) : Item :=
  if dep ∈ it.deps then it
  else { it with deps := it.deps ++ [dep], reverse_deps := it.reverse_deps ++ [dep] }

/-- `_inject_reverse_dependencies`: `needed_by` becomes a standard dep
on the selected items. -/
def inject_reverse_dependencies (items : List Item) : Except BwError (List Item) :=
  let items := items.map (fun it => { it with reverse_deps := [] })
  foldE (fun iid items =>
    match getItem items iid with
    | none => .ok items
    | some item =>
      foldE (fun sel items =>
        match resolve_selector sel items with
        | .error (.noSuchItem _) => .error (.itemDependencyError item.id sel)
        | .error e => .error e
        | .ok r => .ok (r.elems.foldl (fun acc d =>
            updateItem d.id (add_dep item.id) acc) items)
        ) item.needed_by items
  ) (items.map (fun i => i.id)) items

/-- `_inject_trigger_dependencies`: a triggered item gains a dep on each
item triggering it; a non-`triggered` target is a `BundleError`.  (The
source's `except KeyError` around `resolve_selector` can never match,
since `resolve_selector` raises `NoSuchItem` or `ValueError`; those
propagate unchanged.) -/
def inject_trigger_dependencies (items : List Item) : Except BwError (List Item) :=
  foldE (fun iid items =>
    match getItem items iid with
    | none => .ok items
    | some item =>
      foldE (fun sel items =>
        match resolve_selector sel items with
        | .error e => .error e
        | .ok r =>
          foldE (fun (t : Item) items =>
            if t.triggered then
              .ok (updateItem t.id (fun x => { x with deps := x.deps ++ [item.id] }) items)
            else
              .error (.triggerMissingAttr t.id item.id)
            ) r.elems items
        ) item.triggers items
  ) (items.map (fun i => i.id)) items

/-- The body of the inner `for triggered_item in triggered_items:` loop
of `_inject_preceded_by_dependencies`: a `triggered` target records the
declaring item in `_precedes_items` and the declaring item gains a dep
on the target; a non-`triggered` target is a `BundleError`. -/
def precededByTarget (iid : String) (t : Item) (items : List Item) :
    Except BwError (List Item) :=
  if t.triggered then
    .ok (updateItem iid
      (fun x => { x with deps := x.deps ++ [t.id] })
      (updateItem t.id
        (fun x => { x with precedes_items := x.precedes_items ++ [iid] })
        items))
  else
    .error (.precedesMissingAttr t.id iid)

/-- Processing of one `preceded_by` selector of the item `iid`. -/
def precededBySelector (iid : String) (sel : String) (items : List Item) :
    Except BwError (List Item) :=
  match resolve_selector sel items with
  | .error e => .error e
  | .ok r => foldE (precededByTarget iid) r.elems items

/-- Processing of one item in `_inject_preceded_by_dependencies`. -/
def precededByItem (iid : String) (items : List Item) :
    Except BwError (List Item) :=
  match getItem items iid with
  | none => .ok items
  | some item =>
    if item.preceded_by ≠ [] ∧ item.triggered then
      .error (.precededByOnTriggered item.id)
    else
      foldE (precededBySelector iid) item.preceded_by items

/-- `_inject_preceded_by_dependencies`: a triggered item named in some
item's `preceded_by` records that item in `_precedes_items`, and the
declaring item gains a dep on it.  A triggered declaring item, or a
non-`triggered` target, is a `BundleError`.  (As above, the source's
`except KeyError` is dead: `NoSuchItem` propagates unchanged.) -/
def inject_preceded_by_dependencies (items : List Item) : Except BwError (List Item) :=
  foldE precededByItem (items.map (fun i => i.id)) items

/-- One step of the chain-group merging loop of
`_inject_concurrency_blockers`: every existing group that shares a kind
with `block_concurrent` is extended by it and — because the `for/else`
of the source attaches to the outer loop, whose `break` never executes —
`block_concurrent` is always also appended as a group of its own. -/
def addChainGroup (chain_groups : List (List String))
    (block_concurrent : List String) : List (List String) :=
  (chain_groups.map (fun g =>
    if block_concurrent.any (fun b => b ∈ g) then g ++ block_concurrent else g))
    ++ [block_concurrent]

/-- The chain groups built from the per-kind blocked lists, processed in
the given order. -/
def chain_groups_of (blockLists : List (List String)) : List (List String) :=
  blockLists.foldl addChainGroup []

/-- The kinds whose `block_concurrent(os, version)` result is non-empty,
in order of first occurrence in the item list.  (The source collects the
item classes in a Python `set`, whose iteration order is arbitrary;
first-occurrence order is the choice fixed by this embedding, and the
grouping theorems quantify over arbitrary orders.)  `bc k` models
`K.block_concurrent(node_os, node_os_version)` for the kind `k`. -/
def item_types_order (bc : String → List String) (items : List Item) : List String :=
  items.foldl (fun acc it =>
    if bc it.itemTypeName ≠ [] then pyInsert it.itemTypeName acc else acc) []

/-- State of the daisy-chain loop: the item list, the temporary
`item.__deps` lists (in-group deps, keyed by item id), the processed
items and the previous chain element. -/
structure ChainState where
  items : List Item
  tdeps : List (String × List String)
  processed : List String
  prev : Option String

/-- The temporary `__deps` list of an item. -/
def lookupTdeps (tdeps : List (String × List String)) (iid : String) : List String :=
  ((tdeps.find? (fun p => p.1 = iid)).map (fun p => p.2)).getD []

/-- The `while len(processed_items) < len(type_items)` loop of
`_inject_concurrency_blockers`: pick the first unprocessed item with no
remaining in-group deps, chain it after the previous pick (appending to
`_deps`, `_concurrency_deps` and `_flattened_deps` unless the dep is
already in `_deps`), then drop its id from every `__deps` list. -/
def chain_loop (typeIds : List String) : Nat → ChainState → ChainState
  | 0, st => st
  | fuel + 1, st =>
    if st.processed.length < typeIds.length then
      match typeIds.find? (fun iid =>
          (lookupTdeps st.tdeps iid).isEmpty && !(st.processed.contains iid)) with
      | none => st
      | some iid =>
        let items' :=
          match st.prev with
          | none => st.items
          | some p =>
            if p ∈ (((getItem st.items iid).map (fun i => i.deps)).getD []) then
              st.items
            else
              updateItem iid (fun x =>
                { x with deps := x.deps ++ [p],
                         concurrency_deps := x.concurrency_deps ++ [p],
                         flattened_deps := some ((x.flattened_deps.getD []) ++ [p]) })
                st.items
        chain_loop typeIds fuel
          { items := items',
            tdeps := st.tdeps.map (fun p => (p.1, pyRemove iid p.2)),
            processed := st.processed ++ [iid],
            prev := some iid }
    else
      st

/-- Daisy-chain the items of one chain group. -/
def daisy_chain_group (g : List String) (items : List Item) : List Item :=
  let type_ids := (items.filter (fun it => it.itemTypeName ∈ g)).map (fun i => i.id)
  let tdeps := (items.filter (fun it => it.itemTypeName ∈ g)).map (fun it =>
    (it.id, (it.flattened_deps.getD []).filter (fun dep => selectorKind dep ∈ g)))
  (chain_loop type_ids (type_ids.length + 1)
    { items := items, tdeps := tdeps, processed := [], prev := none }).items

/-- `_inject_concurrency_blockers`, with the processing order of the
collected kinds passed explicitly (a Python set iteration). -/
def inject_concurrency_blockers (bc : String → List String)
    (typeOrder : List String) (items : List Item) : List Item :=
  let items := items.map (fun it => { it with concurrency_deps := [] })
  let groups := chain_groups_of (typeOrder.map (fun k => k :: bc k))
  groups.foldl (fun acc g => daisy_chain_group g acc) items

/-- Per-item prechecks of `prepare_dependencies`.  Modelled from the
spec where the item methods are not among the sources at hand:
`_check_bundle_collisions` (no two items of different bundles share an
id), `_check_loopback_dependency` (no self-dependency) and
`_prepare_deps` (seed `_deps` from the declared `needs`). -/
def prepare_item (items : List Item) (it : Item) : Except BwError Item :=
  if items.any (fun o => o.id == it.id && o.bundle != it.bundle) then
    .error (.bundleCollision it.id)
  else if it.id ∈ it.needs then
    .error (.loopbackDependency it.id)
  else
    .ok { it with deps := it.needs }

/-- Sequence a fallible map over a list. -/
def mapE (f : α → Except BwError β) : List α → Except BwError (List β)
  | [] => .ok []
  | x :: rest =>
    match f x with
    | .error e => .error e
    | .ok y =>
      match mapE f rest with
      | .error e => .error e
      | .ok ys => .ok (y :: ys)

/-- `prepare_dependencies`: the full pipeline of dependency passes, in
source order.  The trailing `_check_redundant_dependencies` loop only
reports warnings and mutates nothing, so it is the identity here.
`bc k` models `block_concurrent(node_os, node_os_version)` for kind
`k`. -/
def prepare_dependencies (bc : String → List String) (items : List Item) :
    Except BwError (List Item) :=
  match mapE (prepare_item items) items with
  | .error e => .error e
  | .ok items0 =>
    let items1 := inject_canned_actions items0
    match inject_reverse_triggers items1 with
    | .error e => .error e
    | .ok items2 =>
      match inject_reverse_dependencies items2 with
      | .error e => .error e
      | .ok items3 =>
        match inject_trigger_dependencies items3 with
        | .error e => .error e
        | .ok items4 =>
          match inject_preceded_by_dependencies items4 with
          | .error e => .error e
          | .ok items5 =>
            match flatten_dependencies items5 with
            | .error e => .error e
            | .ok items6 =>
              .ok (inject_concurrency_blockers bc (item_types_order bc items6) items6)

/-! ## Metadata engine (`metagen.py`) -/

/-- A metadata path: a tuple of key segments. -/
abbrev Path := List String

/-- `list_starts_with(a, b)`.  Modelled from the spec: the helper lives
in `utils` (not among the sources at hand) and, per the spec's prefix
wording, returns whether `a` starts with `b`. -/
def list_starts_with (a b : Path) : Bool :=
  b.isPrefixOf a

/-- `PathSet`: a set of paths keeping only the highest-level ones.  The
Python `set` is modelled as a duplicate-free list. -/
structure PathSet where
  paths : List Path
  deriving DecidableEq

/-- The empty `PathSet`. -/
def PathSet.empty : PathSet :=
  { paths := [] }

/-- `PathSet.covers`: some member is a prefix of the candidate path. -/
def PathSet.covers (s : PathSet) (candidate_path : Path) : Bool :=
  s.paths.any (fun existing_path => list_starts_with candidate_path existing_path)

/-- `PathSet.add`: a no-op returning `false` when the new path is
covered; otherwise remove every member the new path is a prefix of,
insert the new path, and return `true`. -/
def PathSet.add (s : PathSet) (new_path : Path) : PathSet × Bool :=
  if s.covers new_path then
    (s, false)
  else
    ({ paths := new_path ::
        s.paths.filter (fun existing_path => !(list_starts_with existing_path new_path)) },
      true)

/-- A finite sequence of `add` operations applied to a `PathSet`. -/
def PathSet.addAll (s : PathSet) (ops : List Path) : PathSet :=
  ops.foldl (fun s p => (s.add p).1) s

/-- A reactor's returned metadata mapping.  The engine only compares
mappings for equality and (under `_verify_reactor_provides`) inspects
their top-level keys, so a flat association list of numbered leaves is
enough structure here. -/
abbrev Mapping := List (String × Nat)

/-- `extra_paths_in_dict(mapping, provides)`.  Modelled from the spec:
the helper (in `utils.dicts`, not among the sources at hand) returns the
key paths of the mapping not declared under `provides`; with the flat
mapping model these are its undeclared top-level keys. -/
def extra_paths_in_dict (m : Mapping) (provides : List String) : List String :=
  (m.map (fun p => p.1)).filter (fun k => !(provides.contains k))

/-- `Metastack`.  Modelled from the spec: the class (in
`utils.metastack`, not among the sources at hand) keeps named layers at
priority tiers; only `_set_layer` and `_pop_layer` are needed by the
claims under study. -/
structure Metastack where
  layers : List ((Nat × String) × Mapping)
  deriving DecidableEq

/-- The empty `Metastack`. -/
def Metastack.empty : Metastack :=
  { layers := [] }

/-- The layer stored under `(tier, name)`, if any. -/
def Metastack.getLayer (ms : Metastack) (tier : Nat) (name : String) : Option Mapping :=
  ((ms.layers.find? (fun p => p.1 = (tier, name))).map (fun p => p.2))

/-- `_pop_layer(tier, name)`: remove the layer and return its previous
mapping, or the empty mapping when absent. -/
def Metastack.popLayer (ms : Metastack) (tier : Nat) (name : String) :
    Mapping × Metastack :=
  ((ms.getLayer tier name).getD [],
    { layers := ms.layers.filter (fun p => !(p.1 = (tier, name) : Bool)) })

/-- `_set_layer(tier, name, mapping)`: install or replace the layer. -/
def Metastack.setLayer (ms : Metastack) (tier : Nat) (name : String) (m : Mapping) :
    Metastack :=
  if (ms.layers.find? (fun p => p.1 = (tier, name))).isSome then
    { layers := ms.layers.map (fun p => if p.1 = (tier, name) then (p.1, m) else p) }
  else
    { layers := ms.layers ++ [((tier, name), m)] }

/-- Look up in an association list with a default (Python
`defaultdict` / `dict.get`). -/
def lookupD [DecidableEq α] (l : List (α × β)) (k : α) (d : β) : β :=
  ((l.find? (fun p => p.1 = k)).map (fun p => p.2)).getD d

/-- Store in an association list, replacing in place or appending
(Python dicts keep first-insertion order). -/
def storeAssoc [DecidableEq α] (l : List (α × β)) (k : α) (v : β) : List (α × β) :=
  if (l.find? (fun p => p.1 = k)).isSome then
    l.map (fun p => if p.1 = k then (p.1, v) else p)
  else
    l ++ [(k, v)]

/-- Delete a key from an association list (Python `del d[k]` inside
`suppress(KeyError)`). -/
def eraseAssoc [DecidableEq α] (l : List (α × β)) (k : α) : List (α × β) :=
  l.filter (fun p => !(p.1 = k : Bool))

/-- The mutable engine state of `MetadataGenerator` relevant to the
claims under study; names follow the attributes set in `__reset`.
Each node's proxy metastack is kept in `metastacks`. -/
structure EngineState where
  do_not_run_again : List (String × String)
  keyerrors : List ((String × String) × String)
  node_deps : List (String × List String)
  node_iterations : List (String × Nat)
  node_stable : List (String × Bool)
  nodes_that_never_ran : List String
  triggered_nodes : List String
  nodes_that_ran_at_least_once : List String
  reactors_run : Nat
  reactor_changes : List ((String × String) × Nat)
  reactors_with_deps : List (String × List String)
  in_a_reactor : Bool
  verify_reactor_provides : Bool
  metastacks : List (String × Metastack)
  metadata_accessed_for : List String
  deriving DecidableEq

/-- A fresh engine state (`__reset`, flags at their class defaults). -/
def EngineState.reset : EngineState :=
  { do_not_run_again := [], keyerrors := [], node_deps := [],
    node_iterations := [], node_stable := [], nodes_that_never_ran := [],
    triggered_nodes := [], nodes_that_ran_at_least_once := [],
    reactors_run := 0, reactor_changes := [], reactors_with_deps := [],
    in_a_reactor := false, verify_reactor_provides := false,
    metastacks := [], metadata_accessed_for := [] }

/-- Errors surfaced by the engine. -/
inductive EngineError where
  /-- An exception other than `KeyError`/`DoNotRunAgain` raised by a
  reactor, re-raised by `__run_reactor`. -/
  | reactorError (exc : String)
  /-- `ValueError` for return paths outside the declared `provides`. -/
  | undeclaredProvides (nodeName reactorName : String) (paths : List String)
  /-- `RuntimeError` for the iteration cap, carrying the node name and
  the listed top changers. -/
  | iterationLimit (nodeName : String)
      (top_changers : List ((String × String) × Nat))
  /-- `MetadataPersistentKeyError` listing each offending
  `(node, reactor)` with its recorded exception. -/
  | metadataPersistentKeyError (offenders : List ((String × String) × String))
  deriving DecidableEq

/-- The behaviour of one invocation of a reactor: how it terminates and
which other nodes' metadata it read through `partial_metadata` while
running. -/
inductive ReactorOutcome where
  | ok (new_metadata : Mapping)
  | keyError (exc : String)
  | doNotRunAgain
  | otherError (exc : String)
  deriving DecidableEq

/-- One reactor invocation as fed to `__run_reactor`: its termination
behaviour plus the set of other node names its execution accessed. -/
structure ReactorRun where
  outcome : ReactorOutcome
  accessed : List String
  deriving DecidableEq

/-- The condition of `NodeMetadataProxy.blame` (and `.stack`) that
raises `RuntimeError("cannot call ... from a reactor")`. -/
def blameRejected (st : EngineState) : Bool :=
  st.in_a_reactor

/-- The `provides` verification of `__run_reactor`: when
`_verify_reactor_provides` is set and the reactor declares `_provides`,
the paths of the returned mapping outside the declaration (fatal when
non-empty). -/
def providesViolation (verify : Bool) (provides : Option (List String))
    (new_metadata : Mapping) : List String :=
  match provides with
  | some ps => if verify then extra_paths_in_dict new_metadata ps else []
  | none => []

/-- `__run_reactor(node, reactor_name, reactor)`: the per-invocation
bookkeeping around one reactor call.  `provides` models the reactor's
`_provides` attribute.  Returns the state after the call together with
either the `(changed, deps)` result or the propagated exception. -/
def runReactor (st : EngineState) (nodeName reactorName : String)
    (provides : Option (List String)) (run : ReactorRun) :
    EngineState × Except EngineError (Bool × List String) :=
  if (nodeName, reactorName) ∈ st.do_not_run_again then
    (st, .ok (false, []))
  else
    let st := { st with metadata_accessed_for := [], reactors_run := st.reactors_run + 1 }
    let ms := lookupD st.metastacks nodeName Metastack.empty
    let popped := ms.popLayer 1 reactorName
    let old_metadata := popped.1
    let st := { st with metastacks := storeAssoc st.metastacks nodeName popped.2,
                        in_a_reactor := true }
    match run.outcome with
    | .keyError exc =>
      let st := { st with
        in_a_reactor := false,
        metadata_accessed_for := run.accessed,
        keyerrors := storeAssoc st.keyerrors (nodeName, reactorName) exc }
      (st, .ok (false, run.accessed))
    | .doNotRunAgain =>
      let st := { st with
        in_a_reactor := false,
        metadata_accessed_for := run.accessed,
        do_not_run_again := st.do_not_run_again ++ [(nodeName, reactorName)],
        keyerrors := eraseAssoc st.keyerrors (nodeName, reactorName) }
      (st, .ok (false, []))
    | .otherError exc =>
      let st := { st with in_a_reactor := false,
                          metadata_accessed_for := run.accessed }
      (st, .error (.reactorError exc))
    | .ok new_metadata =>
      let st := { st with
        in_a_reactor := false,
        metadata_accessed_for := run.accessed,
        keyerrors := eraseAssoc st.keyerrors (nodeName, reactorName) }
      let extra := providesViolation st.verify_reactor_provides provides new_metadata
      if extra ≠ [] then
        (st, .error (.undeclaredProvides nodeName reactorName extra))
      else
        let ms1 := lookupD st.metastacks nodeName Metastack.empty
        let st := { st with
          metastacks := storeAssoc st.metastacks nodeName
            (ms1.setLayer 1 reactorName new_metadata) }
        let changed := old_metadata ≠ new_metadata
        let st :=
          if changed then
            let bumped := storeAssoc st.reactor_changes (nodeName, reactorName)
              (lookupD st.reactor_changes (nodeName, reactorName) 0 + 1)
            { st with reactor_changes := bumped }
          else st
        (st, .ok (changed, run.accessed))

/-- `MAX_METADATA_ITERATIONS`: the value of `BW_MAX_METADATA_ITERATIONS`
in the environment, defaulting to 1000. -/
def MAX_METADATA_ITERATIONS (envValue : Option Nat) : Nat :=
  envValue.getD 1000

/-- `Counter(...).most_common(n)`: the `n` entries with the largest
counts, in descending count order (stable for equal counts). -/
def mostCommon (n : Nat) (counts : List ((String × String) × Nat)) :
    List ((String × String) × Nat) :=
  (pySort (fun a b => b.2 ≤ a.2) counts).take n

/-- `__check_iteration_count(node_name)`: bump the per-node counter and
fail with the 25 most-changed reactors once it exceeds the cap. -/
def checkIterationCount (maxIter : Nat) (st : EngineState) (nodeName : String) :
    EngineState × Except EngineError Unit :=
  let bumped := storeAssoc st.node_iterations nodeName
    (lookupD st.node_iterations nodeName 0 + 1)
  let st := { st with node_iterations := bumped }
  if lookupD st.node_iterations nodeName 0 > maxIter then
    (st, .error (.iterationLimit nodeName (mostCommon 25 st.reactor_changes)))
  else
    (st, .ok ())

/-- Ordered key comparison used by Python's `sorted` over
`keyerrors.items()` (tuples compare lexicographically; keys are
unique, so the exception component never decides). -/
def keyerrorLe (a b : ((String × String) × String)) : Bool :=
  if a.1.1 = b.1.1 then
    (if a.1.2 = b.1.2 then strLe a.2 b.2 else strLe a.1.2 b.1.2)
  else strLe a.1.1 b.1.1

/-- The `if self.__keyerrors and not QUIT_EVENT.is_set():` check at the
end of `_build_node_metadata`, raising `MetadataPersistentKeyError`
listing every remaining offender (sorted) with its exception. -/
def buildFinalCheck (st : EngineState) (quitRequested : Bool) :
    Except EngineError Unit :=
  if st.keyerrors ≠ [] ∧ quitRequested = false then
    .error (.metadataPersistentKeyError (pySort keyerrorLe st.keyerrors))
  else
    .ok ()

/-- One scheduled reactor of a `__run_reactors` sweep: its name, its
`_provides` attribute and the behaviour its invocation would exhibit. -/
structure ScheduledReactor where
  name : String
  provides : Option (List String)
  run : ReactorRun
  deriving DecidableEq

/-- The inner reactor loop of `__run_reactors` for one value of
`depsonly`: run every scheduled reactor the gate admits, collect whether
any changed, record cross-node deps (`reactors_with_deps`,
`nodes_that_never_ran`, `node_deps`), propagate reactor exceptions. -/
def reactorsPass (st : EngineState) (nodeName : String) (depsonly : Bool)
    (sched : List ScheduledReactor) (anyChanged : Bool) :
    EngineState × Except EngineError Bool :=
  match sched with
  | [] => (st, .ok anyChanged)
  | r :: rest =>
    let withDepsSet := lookupD st.reactors_with_deps nodeName []
    if (depsonly && !(withDepsSet.contains r.name))
        || (!depsonly && withDepsSet.contains r.name) then
      reactorsPass st nodeName depsonly rest anyChanged
    else
      match runReactor st nodeName r.name r.provides r.run with
      | (st1, .error e) => (st1, .error e)
      | (st1, .ok (changed, deps)) =>
        let anyChanged := anyChanged || changed
        let st2 :=
          if deps ≠ [] then
            let marked := storeAssoc st1.reactors_with_deps nodeName
              (pyInsert r.name (lookupD st1.reactors_with_deps nodeName []))
            { st1 with reactors_with_deps := marked }
          else st1
        let st3 := deps.foldl (fun acc rn =>
          let acc :=
            if !(acc.nodes_that_ran_at_least_once.contains rn) then
              { acc with nodes_that_never_ran := pyInsert rn acc.nodes_that_never_ran }
            else acc
          let ndeps := storeAssoc acc.node_deps rn
            (pyInsert nodeName (lookupD acc.node_deps rn []))
          { acc with node_deps := ndeps }) st2
        reactorsPass st3 nodeName depsonly rest anyChanged

/-- The tail of `__run_reactors` after both reactor passes: mark the
nodes depending on this one as triggered when anything changed, and
update the node's stability flag according to the pass gates. -/
def runReactorsStability (st2 : EngineState) (nodeName : String)
    (withDeps withoutDeps anyChanged : Bool) : EngineState :=
  let st3 :=
    if anyChanged then
      let trig := (lookupD st2.node_deps nodeName []).foldl
        (fun acc m => pyInsert m acc) st2.triggered_nodes
      { st2 with triggered_nodes := trig }
    else st2
  if withDeps && anyChanged then
    { st3 with node_stable := storeAssoc st3.node_stable nodeName false }
  else if withoutDeps then
    { st3 with node_stable := storeAssoc st3.node_stable nodeName (!anyChanged) }
  else st3

/-- The body of `__run_reactors` after the iteration-count check: the
two gated reactor passes followed by the trigger/stability updates. -/
def runReactorsPasses (st0 : EngineState) (nodeName : String)
    (withDeps withoutDeps : Bool) (sched : List ScheduledReactor) :
    EngineState × Except EngineError Unit :=
  match (if withDeps then reactorsPass st0 nodeName true sched false
      else (st0, .ok false)) with
  | (st1, .error e) => (st1, .error e)
  | (st1, .ok any1) =>
    match (if withoutDeps then reactorsPass st1 nodeName false sched any1
        else (st1, .ok any1)) with
    | (st2, .error e) => (st2, .error e)
    | (st2, .ok anyChanged) =>
      (runReactorsStability st2 nodeName withDeps withoutDeps anyChanged, .ok ())

/-- `__run_reactors(node, with_deps, without_deps)`: bump and check the
iteration count, run the gated reactor passes (reactors with previously
observed cross-node deps first), then mark triggered nodes and update
node stability.  `sched` stands for the randomized order of the node's
pending reactors (each pending reactor is admitted by exactly one of the
two gated passes). -/
def run_reactors (maxIter : Nat) (st : EngineState) (nodeName : String)
    (withDeps withoutDeps : Bool) (sched : List ScheduledReactor) :
    EngineState × Except EngineError Unit :=
  match checkIterationCount maxIter st nodeName with
  | (st0, .error e) => (st0, .error e)
  | (st0, .ok _) => runReactorsPasses st0 nodeName withDeps withoutDeps sched

/-! ## Static views of items

The injection passes mutate only derived fields (`_deps`,
`_precedes_items`, `_flattened_deps`, ...), while `resolve_selector`
reads only declared attributes.  The static view collects the fields the
pass-level theorems rely on being unchanged. -/

/-- The fields of an item that `_inject_preceded_by_dependencies` (and
`resolve_selector`) read but never write. -/
structure ItemStatic where
  id : String
  bundle : String
  itemTypeName : String
  tags : List String
  triggered : Bool
  preceded_by : List String
  deriving DecidableEq

/-- The static view of an item. -/
def Item.static (i : Item) : ItemStatic :=
  { id := i.id, bundle := i.bundle, itemTypeName := i.itemTypeName,
    tags := i.tags, triggered := i.triggered, preceded_by := i.preceded_by }

/-- The shape of a `resolve_selector` result up to static views:
whether it is the re-iterable single-id list, and the static views of
its elements. -/
def SelResult.statics : SelResult Item → Bool × List ItemStatic
  | .iter es => (false, es.map Item.static)
  | .lst es => (true, es.map Item.static)

/-- Growth relation between item-list states of a pass: statics are
unchanged and the `_deps` / `_precedes_items` lists only gain
elements. -/
def Grow (l l' : List Item) : Prop :=
  List.Forall₂ (fun a b => a.static = b.static ∧ a.deps ⊆ b.deps ∧
    a.precedes_items ⊆ b.precedes_items) l l'

/-! ## Concrete fixtures used by counterexamples and witnesses -/

/-- A service item with no declared attributes. -/
def svcItemA : Item :=
  Item.mk0 "svc:a" "bundle1" "svc"

/-- A second service item of the same kind. -/
def svcItemB : Item :=
  Item.mk0 "svc:b" "bundle1" "svc"

/-- `block_concurrent` of the `svc` kind blocks itself; all other kinds
allow concurrency. -/
def svcBlock : String → List String :=
  fun k => if k = "svc" then ["svc"] else []

/-- The second service item declaring a direct dep on the first, with
`_deps` already seeded (as `_prepare_deps` would). -/
def svcItemBNeedsA : Item :=
  { Item.mk0 "svc:b" "bundle1" "svc" with needs := ["svc:a"], deps := ["svc:a"] }

/-- An untriggered file item declaring `preceded_by` on a canned
action. -/
def pbItemA : Item :=
  { Item.mk0 "file:/c" "bundle1" "file" with preceded_by := ["action:x"] }

/-- The triggered action item named by `pbItemA.preceded_by`. -/
def pbItemT : Item :=
  { Item.mk0 "action:x" "bundle1" "action" with triggered := true }

/-- An untriggered file item declaring `preceded_by` on an action that
is itself not `triggered`. -/
def pbItemAU : Item :=
  { Item.mk0 "file:/d" "bundle1" "file" with preceded_by := ["action:y"] }

/-- The untriggered action item named by `pbItemAU.preceded_by`. -/
def pbItemU : Item :=
  Item.mk0 "action:y" "bundle1" "action"

/-- A selector that resolves to zero items against the given item list
(for example a `tag:` or `bundle:` selector matching nothing). -/
def EmptyRes (base : List Item) (d : String) : Prop :=
  ∃ r, resolve_selector d base = .ok r ∧ r.elems = []

/-- No `_deps` entry of `b` is a zero-resolving selector. -/
def NoEmptyDeps (base : List Item) (b : Item) : Prop :=
  ∀ d, EmptyRes base d → d ∉ b.deps

/-- How one entry of the item list changes across a completed
`_flatten_deps_for_item` call: an already-flattened entry keeps its
`_deps` frozen and stays flattened; an entry still unflattened
afterwards was never touched; an entry flattened by the call had every
zero-resolving selector removed from its `_deps` (keeping a subset of
the old entries), with every old entry resolving successfully. -/
def FlatRest (base : List Item) (a b : Item) : Prop :=
  (a.flattened_deps.isSome = true →
    b.flattened_deps.isSome = true ∧ b.deps = a.deps) ∧
  (b.flattened_deps.isSome = false → b = a) ∧
  (a.flattened_deps.isSome = false → b.flattened_deps.isSome = true →
    NoEmptyDeps base b ∧ b.deps ⊆ a.deps ∧
    ∀ d ∈ a.deps, ∃ r, resolve_selector d base = .ok r)

/-- Entrywise relation of a completed `_flatten_deps_for_item` call:
statics preserved, and `FlatRest`. -/
def FlatStep (base : List Item) (a b : Item) : Prop :=
  a.static = b.static ∧ FlatRest base a b

/-- Entrywise relation of the inner `for dep in item._deps.copy()` loop,
which runs with the in-flight item `itemId` already flattened: other
entries follow `FlatRest`; the in-flight entry stays flattened and its
`_deps` lose at least every zero-resolving selector not accounted for by
the remaining dep list `dl`. -/
def MidStep (base : List Item) (itemId : String) (dl : List String)
    (a b : Item) : Prop :=
  a.static = b.static ∧
  (a.id ≠ itemId → FlatRest base a b) ∧
  (a.id = itemId →
    b.deps ⊆ a.deps ∧
    (a.flattened_deps.isSome = true → b.flattened_deps.isSome = true) ∧
    ∀ d, EmptyRes base d → List.count d a.deps ≤ List.count d dl →
      d ∉ b.deps)

/-- Entrywise relation of the inner `for dep_item in dep_items:` loop:
other entries follow `FlatRest`; the in-flight entry's `_deps` are
untouched (only its `_flattened_deps` set grows). -/
def ItemsStep (base : List Item) (itemId : String) (a b : Item) : Prop :=
  a.static = b.static ∧
  (a.id ≠ itemId → FlatRest base a b) ∧
  (a.id = itemId → b.deps = a.deps ∧
    (a.flattened_deps.isSome = true → b.flattened_deps.isSome = true))

/-- Every entry's `_deps` list is contained in the `_deps` of the item of
the same id in the base list (flattening only ever removes deps). -/
def DepsBounded (base cur : List Item) : Prop :=
  ∀ a ∈ cur, ∀ g ∈ base, g.id = a.id → a.deps ⊆ g.deps

/-- The error is an `ItemDependencyError` blaming a selector — occurring
in some base item's `_deps` — that names a non-existent single item. -/
def IsMissing (base : List Item) (e : BwError) : Prop :=
  ∃ i d s g, e = .itemDependencyError i d ∧ g ∈ base ∧ d ∈ g.deps ∧
    resolve_selector d base = .error (.noSuchItem s)

/-- The number of entries without `_flattened_deps` yet; it bounds the
recursion depth of `_flatten_deps_for_item`. -/
def unflat (items : List Item) : Nat :=
  items.countP (fun i => i.flattened_deps.isNone)

/-- Full specification of `_flatten_deps_for_item` at a given fuel,
relative to the base item list: a successful call on a not-yet-flattened
item relates the states by `FlatStep` and flattens the target, while a
failing call raises `ItemDependencyError` for a selector naming a
missing single item. -/
def FlatSpec (base : List Item) (f : Nat) : Prop :=
  ∀ (id : String) (cur : List Item) (it : Item),
    cur.map Item.static = base.map Item.static →
    DepsBounded base cur →
    getItem cur id = some it →
    it.flattened_deps.isSome = false →
    unflat cur ≤ f →
    (∀ out, flatten_deps_for_item f id cur = .ok out →
      List.Forall₂ (FlatStep base) cur out ∧
      ∀ E, getItem out id = some E → E.flattened_deps.isSome = true) ∧
    (∀ e, flatten_deps_for_item f id cur = .error e → IsMissing base e)

/-- A file item whose only declared dep is a tag selector matching
nothing. -/
def c9item : Item :=
  { Item.mk0 "file:/w" "bundle1" "file" with deps := ["tag:nonexistent"] }

/-- Its state after `_flatten_dependencies`: the selector is gone from
`_deps` (though it is recorded in `_flattened_deps`). -/
def c9dropped : Item :=
  { c9item with deps := [], flattened_deps := some ["tag:nonexistent"] }

/-- A file item whose only declared dep names a non-existent single
item. -/
def c9missing : Item :=
  { Item.mk0 "file:/m" "bundle1" "file" with deps := ["pkg:absent"] }

/-! ## General lemmas about the Python collection models -/

theorem mem_pyInsertSorted (le : α → α → Bool) (x a : α) (l : List α) :
    a ∈ pyInsertSorted le x l ↔ a = x ∨ a ∈ l := by
  induction l with
  | nil => simp [pyInsertSorted]
  | cons y ys ih =>
    by_cases h : le y x = true
    · simp only [pyInsertSorted, if_pos h, List.mem_cons, ih]
      tauto
    · simp only [pyInsertSorted, if_neg h, List.mem_cons]

theorem length_pyInsertSorted (le : α → α → Bool) (x : α) (l : List α) :
    (pyInsertSorted le x l).length = l.length + 1 := by
  induction l with
  | nil => rfl
  | cons y ys ih =>
    by_cases h : le y x = true
    · simp [pyInsertSorted, if_pos h, ih]
    · simp [pyInsertSorted, if_neg h]

theorem pairwise_pyInsertSorted (le : α → α → Bool)
    (htrans : ∀ a b c, le a b = true → le b c = true → le a c = true)
    (htot : ∀ a b, le a b = true ∨ le b a = true)
    (x : α) (l : List α) (hl : List.Pairwise (fun a b => le a b = true) l) :
    List.Pairwise (fun a b => le a b = true) (pyInsertSorted le x l) := by
  induction l with
  | nil => simp [pyInsertSorted]
  | cons y ys ih =>
    rcases List.pairwise_cons.mp hl with ⟨hy, hys⟩
    by_cases h : le y x = true
    · rw [pyInsertSorted, if_pos h]
      refine List.pairwise_cons.mpr ⟨?_, ih hys⟩
      intro z hz
      rcases (mem_pyInsertSorted le x z ys).mp hz with rfl | hz'
      · exact h
      · exact hy z hz'
    · rw [pyInsertSorted, if_neg h]
      have hxy : le x y = true := by
        rcases htot x y with h' | h'
        · exact h'
        · exact absurd h' h
      refine List.pairwise_cons.mpr ⟨?_, hl⟩
      intro z hz
      rcases List.mem_cons.mp hz with rfl | hz'
      · exact hxy
      · exact htrans x y z hxy (hy z hz')

theorem mem_pySort (le : α → α → Bool) (a : α) (l : List α) :
    a ∈ pySort le l ↔ a ∈ l := by
  suffices h : ∀ acc, a ∈ l.foldl (fun acc x => pyInsertSorted le x acc) acc
      ↔ a ∈ acc ∨ a ∈ l by
    simpa [pySort] using h []
  induction l with
  | nil => simp
  | cons x xs ih =>
    intro acc
    rw [List.foldl_cons, ih, mem_pyInsertSorted]
    simp [List.mem_cons]
    tauto

theorem length_pySort (le : α → α → Bool) (l : List α) :
    (pySort le l).length = l.length := by
  suffices h : ∀ acc, (l.foldl (fun acc x => pyInsertSorted le x acc) acc).length
      = acc.length + l.length by
    simpa [pySort] using h []
  induction l with
  | nil => simp
  | cons x xs ih =>
    intro acc
    rw [List.foldl_cons, ih, length_pyInsertSorted]
    simp only [List.length_cons]
    omega

theorem pairwise_pySort (le : α → α → Bool)
    (htrans : ∀ a b c, le a b = true → le b c = true → le a c = true)
    (htot : ∀ a b, le a b = true ∨ le b a = true) (l : List α) :
    List.Pairwise (fun a b => le a b = true) (pySort le l) := by
  suffices h : ∀ acc, List.Pairwise (fun a b => le a b = true) acc →
      List.Pairwise (fun a b => le a b = true)
        (l.foldl (fun acc x => pyInsertSorted le x acc) acc) by
    exact h [] (by simp)
  induction l with
  | nil => exact fun acc h => h
  | cons x xs ih =>
    intro acc hacc
    exact ih _ (pairwise_pyInsertSorted le htrans htot x acc hacc)

theorem find?_storeAssoc_self [DecidableEq α] (l : List (α × β)) (k : α) (v : β) :
    (storeAssoc l k v).find? (fun p => p.1 = k) = some (k, v) := by
  by_cases h : (l.find? (fun p => p.1 = k)).isSome
  · rw [storeAssoc, if_pos h]
    induction l with
    | nil => simp at h
    | cons p ps ih =>
      by_cases hp : p.1 = k
      · simp [List.find?, hp]
      · have h' : (ps.find? (fun q => q.1 = k)).isSome := by
          simpa [List.find?_cons, hp] using h
        simpa [List.find?_cons, hp] using ih h'
  · rw [storeAssoc, if_neg h]
    have hnone : l.find? (fun p => p.1 = k) = none := by
      cases hfind : l.find? (fun p => p.1 = k) with
      | none => rfl
      | some p => rw [hfind] at h; simp at h
    induction l with
    | nil => simp [List.find?]
    | cons p ps ih =>
      have hp : ¬(p.1 = k) := by
        intro hk
        simp [List.find?_cons, hk] at hnone
      have hps : ps.find? (fun q => q.1 = k) = none := by
        simpa [List.find?_cons, hp] using hnone
      have hps' : ¬(ps.find? (fun q => q.1 = k)).isSome := by simp [hps]
      simpa [List.find?_cons, hp] using ih hps' hps

theorem lookupD_storeAssoc_self [DecidableEq α] (l : List (α × β)) (k : α)
    (v : β) (d : β) : lookupD (storeAssoc l k v) k d = v := by
  rw [lookupD, find?_storeAssoc_self]
  rfl

theorem find?_eraseAssoc_self [DecidableEq α] (l : List (α × β)) (k : α) :
    (eraseAssoc l k).find? (fun p => p.1 = k) = none := by
  rw [List.find?_eq_none]
  intro p hp
  rcases List.mem_filter.mp hp with ⟨_, hcond⟩
  simp only [Bool.not_eq_true', decide_eq_false_iff_not] at hcond
  simpa using hcond

theorem getLayer_popLayer (ms : Metastack) (t : Nat) (name : String) :
    ((ms.popLayer t name).2).getLayer t name = none := by
  have h : (ms.layers.filter (fun p => !(p.1 = (t, name) : Bool))).find?
      (fun p => p.1 = (t, name)) = none := by
    rw [List.find?_eq_none]
    intro p hp
    rcases List.mem_filter.mp hp with ⟨_, hcond⟩
    simp only [Bool.not_eq_true', decide_eq_false_iff_not] at hcond
    simpa using hcond
  simp only [Metastack.popLayer, Metastack.getLayer, h, Option.map_none']

/-! ## C1: the `KIND:` selector -/

/-- C1: at the failing input — the selector `"file:"` against a single
item of kind `file` — `resolve_selector` returns no items, because its
`KIND:` branch compares `ITEM_TYPE_NAME` with the empty `selector_name`
instead of `selector_type`; the claim (and the surrounding comment and
docstring) require exactly the items of kind `file`, i.e. the one item
here. -/
theorem C1_kind_selector_returns_no_items :
    (resolve_selector "file:" [Item.mk0 "file:/bar" "mybundle" "file"]).map
      (fun r => r.elems) = .ok ([] : List Item) ∧
    (Item.mk0 "file:/bar" "mybundle" "file").itemTypeName = "file" ∧
    [Item.mk0 "file:/bar" "mybundle" "file"].filter
      (fun item => item.itemTypeName = "file")
      = [Item.mk0 "file:/bar" "mybundle" "file"] :=
  ⟨rfl, rfl, rfl⟩

/-! ## C3: chain-group merging -/

/-- C3 (counterexample): kinds `t1` (blocking `a`), `t2` (blocking `a`
and `b`) and `t3` (blocking `b`) overlap pairwise through `t2`, yet when
the kinds are processed in the order `t1, t3, t2` no resulting chain
group contains all three kind names — the single-pass `for/else` merge
is not transitive for every processing order. -/
theorem C3_counterexample :
    chain_groups_of [["t1", "a"], ["t3", "b"], ["t2", "a", "b"]] =
      [["t1", "a", "t2", "a", "b"], ["t3", "b", "t2", "a", "b"], ["t2", "a", "b"]] ∧
    ("a" ∈ ["t1", "a"] ∧ "a" ∈ ["t2", "a", "b"]) ∧
    ("b" ∈ ["t2", "a", "b"] ∧ "b" ∈ ["t3", "b"]) ∧
    "t3" ∉ ["t1", "a", "t2", "a", "b"] ∧
    "t1" ∉ ["t3", "b", "t2", "a", "b"] ∧
    "t1" ∉ ["t2", "a", "b"] := by
  refine ⟨rfl, by decide, by decide, by decide, by decide, by decide⟩

/-- C3 (amended): the merge is transitive when the middle kind — the one
whose blocked list overlaps both others — is processed first: some chain
group then contains all three kind names.  (For other processing orders
this can fail, as the counterexample shows.) -/
theorem C3_transitive_merge_when_middle_first (n1 n2 n3 : String)
    (b1 b2 b3 : List String)
    (h12 : ∃ x, x ∈ n1 :: b1 ∧ x ∈ n2 :: b2)
    (h23 : ∃ x, x ∈ n2 :: b2 ∧ x ∈ n3 :: b3) :
    (chain_groups_of [n2 :: b2, n1 :: b1, n3 :: b3]).any
      (fun g => decide (n1 ∈ g) && decide (n2 ∈ g) && decide (n3 ∈ g)) = true := by
  obtain ⟨x, hx1, hx2⟩ := h12
  obtain ⟨y, hy2, hy3⟩ := h23
  have hA : (n1 :: b1).any (fun b => decide (b ∈ n2 :: b2)) = true := by
    rw [List.any_eq_true]
    exact ⟨x, hx1, by simpa using hx2⟩
  have hB : (n3 :: b3).any (fun b => decide (b ∈ (n2 :: b2) ++ (n1 :: b1))) = true := by
    rw [List.any_eq_true]
    refine ⟨y, hy3, ?_⟩
    simp only [List.mem_append, decide_eq_true_eq]
    exact Or.inl hy2
  rw [List.any_eq_true]
  refine ⟨(n2 :: b2) ++ (n1 :: b1) ++ (n3 :: b3), ?_, ?_⟩
  · show _ ∈ chain_groups_of _
    rw [chain_groups_of]
    rw [show List.foldl addChainGroup [] [n2 :: b2, n1 :: b1, n3 :: b3]
        = addChainGroup (addChainGroup (addChainGroup [] (n2 :: b2)) (n1 :: b1))
          (n3 :: b3) from rfl]
    rw [show addChainGroup [] (n2 :: b2) = [n2 :: b2] from rfl]
    rw [show addChainGroup [n2 :: b2] (n1 :: b1)
        = [if (n1 :: b1).any (fun b => decide (b ∈ n2 :: b2)) then
            (n2 :: b2) ++ (n1 :: b1) else n2 :: b2, n1 :: b1] from rfl]
    rw [hA, if_pos rfl]
    rw [addChainGroup]
    simp only [List.map_cons, List.map_nil, hB, if_pos]
    exact List.mem_cons_self _ _
  · have h1 : n1 ∈ (n2 :: b2) ++ (n1 :: b1) ++ (n3 :: b3) := by
      simp [List.mem_append]
    have h2 : n2 ∈ (n2 :: b2) ++ (n1 :: b1) ++ (n3 :: b3) := by
      simp [List.mem_append]
    have h3 : n3 ∈ (n2 :: b2) ++ (n1 :: b1) ++ (n3 :: b3) := by
      simp [List.mem_append]
    simp [h1, h2, h3]

/-- C3 (witness): the amended theorem applied to the counterexample's
kinds, processing the middle kind `t2` first. -/
theorem C3_transitive_merge_witness :
    (chain_groups_of [["t2", "a", "b"], ["t1", "a"], ["t3", "b"]]).any
      (fun g => decide ("t1" ∈ g) && decide ("t2" ∈ g) && decide ("t3" ∈ g))
      = true :=
  C3_transitive_merge_when_middle_first "t1" "t2" "t3" ["a"] ["a", "b"] ["b"]
    ⟨"a", by decide, by decide⟩ ⟨"b", by decide, by decide⟩

/-! ## C5: the PathSet invariant -/

theorem covers_iff (s : PathSet) (q : Path) :
    s.covers q = true ↔ ∃ m ∈ s.paths, m <+: q := by
  simp [PathSet.covers, List.any_eq_true, list_starts_with,
    List.isPrefixOf_iff_prefix]

theorem add_of_covers (s : PathSet) (p : Path) (h : s.covers p = true) :
    s.add p = (s, false) := by
  rw [PathSet.add, if_pos h]

theorem mem_add_of_not_covers (s : PathSet) (p x : Path)
    (h : s.covers p = false) :
    x ∈ (s.add p).1.paths ↔ x = p ∨ (x ∈ s.paths ∧ ¬(p <+: x)) := by
  rw [PathSet.add, if_neg (by simp [h])]
  have hiff : ∀ a b : Path, (List.isPrefixOf a b = false) ↔ ¬(a <+: b) := by
    intro a b
    rw [Bool.eq_false_iff, Ne, List.isPrefixOf_iff_prefix]
  simp [List.mem_filter, list_starts_with, hiff]

theorem pathset_inv_add (s : PathSet)
    (h : ∀ p ∈ s.paths, ∀ q ∈ s.paths, p <+: q → p = q) (np : Path) :
    ∀ p ∈ (s.add np).1.paths, ∀ q ∈ (s.add np).1.paths, p <+: q → p = q := by
  by_cases hc : s.covers np = true
  · rw [add_of_covers s np hc]
    exact h
  · rw [Bool.not_eq_true] at hc
    intro p hp q hq hpq
    rcases (mem_add_of_not_covers s np p hc).mp hp with hp1 | ⟨hps, hpn⟩
    · rcases (mem_add_of_not_covers s np q hc).mp hq with hq1 | ⟨_, hqn⟩
      · rw [hp1, hq1]
      · exact absurd (hp1 ▸ hpq) hqn
    · rcases (mem_add_of_not_covers s np q hc).mp hq with hq1 | ⟨hqs, _⟩
      · exact absurd ((covers_iff s np).mpr ⟨p, hps, hq1 ▸ hpq⟩) (by simp [hc])
      · exact h p hps q hqs hpq

theorem pathset_inv_addAll (s : PathSet)
    (h : ∀ p ∈ s.paths, ∀ q ∈ s.paths, p <+: q → p = q) (ops : List Path) :
    ∀ p ∈ (s.addAll ops).paths, ∀ q ∈ (s.addAll ops).paths, p <+: q → p = q := by
  induction ops generalizing s with
  | nil => exact h
  | cons op rest ih =>
    rw [PathSet.addAll, List.foldl_cons]
    exact ih ((s.add op).1) (pathset_inv_add s h op)

/-- C5: after any finite sequence of `add` operations on the empty
`PathSet`, no member is a proper prefix of another member; `add p` is a
no-op (returning `false`) when the set covers `p`, and otherwise removes
exactly the members that `p` is a prefix of and inserts `p` (returning
`true`); and `covers q` holds exactly when some member is a prefix of
`q`. -/
theorem C5_pathset_invariant (ops : List Path) (p q x : Path) :
    (p ∈ (PathSet.empty.addAll ops).paths →
      q ∈ (PathSet.empty.addAll ops).paths → p <+: q → p = q) ∧
    ((PathSet.empty.addAll ops).covers q = true ↔
      ∃ m ∈ (PathSet.empty.addAll ops).paths, m <+: q) ∧
    ((PathSet.empty.addAll ops).covers p = true →
      (PathSet.empty.addAll ops).add p = (PathSet.empty.addAll ops, false)) ∧
    ((PathSet.empty.addAll ops).covers p = false →
      ((PathSet.empty.addAll ops).add p).2 = true ∧
      (x ∈ ((PathSet.empty.addAll ops).add p).1.paths ↔
        x = p ∨ (x ∈ (PathSet.empty.addAll ops).paths ∧ ¬(p <+: x)))) := by
  refine ⟨?_, covers_iff _ q, add_of_covers _ p, ?_⟩
  · intro hp hq
    exact pathset_inv_addAll PathSet.empty (by simp [PathSet.empty]) ops p hp q hq
  · intro hnc
    refine ⟨?_, mem_add_of_not_covers _ p x hnc⟩
    rw [PathSet.add, if_neg (by simp [hnc])]

/-- C5 (witness): the theorem applied to the add sequence
`[foo, bar], [foo]`; the second add removes the first path, so the set
covers `[foo, baz]`. -/
theorem C5_pathset_witness :
    (PathSet.empty.addAll [["foo", "bar"], ["foo"]]).covers ["foo", "baz"] = true :=
  (C5_pathset_invariant [["foo", "bar"], ["foo"]] ["foo"] ["foo", "baz"]
    ["foo"]).2.1.mpr ⟨["foo"], by decide, by decide⟩

/-! ## C10: the `_in_a_reactor` flag -/

/-- C10: after any call of `__run_reactor` — whichever way the reactor
terminates — the `_in_a_reactor` flag is false (the skip path for a
`do_not_run_again` reactor leaves the state untouched, so there the flag
stays false when it was false before, which is the engine's resting
state); consequently the in-a-reactor guard of `blame`/`stack` does not
reject afterwards. -/
theorem C10_in_a_reactor_reset (st : EngineState) (n r : String)
    (provides : Option (List String)) (run : ReactorRun)
    (h : (n, r) ∉ st.do_not_run_again ∨ st.in_a_reactor = false) :
    (runReactor st n r provides run).1.in_a_reactor = false ∧
    blameRejected (runReactor st n r provides run).1 = false := by
  have key : (runReactor st n r provides run).1.in_a_reactor = false := by
    by_cases hm : (n, r) ∈ st.do_not_run_again
    · rcases h with h | h
      · exact absurd hm h
      · simpa [runReactor, hm] using h
    · obtain ⟨outcome, accessed⟩ := run
      cases outcome with
      | ok new_metadata =>
        by_cases hv : providesViolation st.verify_reactor_provides provides new_metadata ≠ []
        · simp [runReactor, hm, hv]
        · by_cases hch : ((lookupD st.metastacks n Metastack.empty).popLayer 1 r).1 ≠ new_metadata
          · simp [runReactor, hm, hv, hch]
          · simp [runReactor, hm, hv, hch]
      | keyError exc => simp [runReactor, hm]
      | doNotRunAgain => simp [runReactor, hm]
      | otherError exc => simp [runReactor, hm]
  exact ⟨key, by rw [blameRejected, key]⟩

/-- C10 (witness): the theorem at a fresh engine state and a normally
returning reactor. -/
theorem C10_in_a_reactor_reset_witness :
    (runReactor EngineState.reset "node1" "reactor1" none
      ⟨.ok [("a", 1)], []⟩).1.in_a_reactor = false ∧
    blameRejected (runReactor EngineState.reset "node1" "reactor1" none
      ⟨.ok [("a", 1)], []⟩).1 = false :=
  C10_in_a_reactor_reset EngineState.reset "node1" "reactor1" none
    ⟨.ok [("a", 1)], []⟩ (Or.inl (by decide))

/-! ## C8: layer swap and change accounting of `__run_reactor` -/

/-- C8 (counterexample): with `_verify_reactor_provides` enabled, a
reactor that returns normally but produces the undeclared key `b` makes
`__run_reactor` raise `ValueError` — the returned mapping is *not*
installed as a tier-1 layer, contradicting the claim's unconditional
"on successful return the returned mapping is installed". -/
theorem C8_counterexample :
    (runReactor { EngineState.reset with verify_reactor_provides := true }
      "n" "r" (some ["a"]) ⟨.ok [("b", 1)], []⟩).2
      = .error (.undeclaredProvides "n" "r" ["b"]) ∧
    (lookupD (runReactor { EngineState.reset with verify_reactor_provides := true }
      "n" "r" (some ["a"]) ⟨.ok [("b", 1)], []⟩).1.metastacks "n"
      Metastack.empty).getLayer 1 "r" = none :=
  ⟨rfl, rfl⟩

/-- C8 (amended): for a reactor not in `do_not_run_again` that returns
normally — provided the `provides` verification (when enabled) finds no
undeclared paths — the tier-1 layer named after the reactor is removed
from the node's metastack before the invocation (so the reactor cannot
observe its own previous output), the returned mapping is installed as
the new tier-1 layer, the run reports changed exactly when the new
mapping differs from the removed one, and in that case the change
counter of `(node, reactor)` is incremented. -/
theorem C8_reactor_layer_swap (st : EngineState) (n r : String)
    (provides : Option (List String)) (new : Mapping) (accessed : List String)
    (h1 : (n, r) ∉ st.do_not_run_again)
    (hV : providesViolation st.verify_reactor_provides provides new = []) :
    ((lookupD st.metastacks n Metastack.empty).popLayer 1 r).2.getLayer 1 r
      = none ∧
    lookupD (runReactor st n r provides ⟨.ok new, accessed⟩).1.metastacks n
        Metastack.empty
      = ((lookupD st.metastacks n Metastack.empty).popLayer 1 r).2.setLayer 1 r new ∧
    (runReactor st n r provides ⟨.ok new, accessed⟩).2
      = .ok (decide (((lookupD st.metastacks n Metastack.empty).popLayer 1 r).1 ≠ new),
          accessed) ∧
    lookupD (runReactor st n r provides ⟨.ok new, accessed⟩).1.reactor_changes (n, r) 0
      = lookupD st.reactor_changes (n, r) 0 +
        (if ((lookupD st.metastacks n Metastack.empty).popLayer 1 r).1 ≠ new
          then 1 else 0) := by
  have hv' : ¬(providesViolation st.verify_reactor_provides provides new ≠ []) := by
    simp [hV]
  refine ⟨getLayer_popLayer _ 1 r, ?_, ?_, ?_⟩
  · by_cases hch : ((lookupD st.metastacks n Metastack.empty).popLayer 1 r).1 ≠ new
    · simp [runReactor, h1, hv', hch, lookupD_storeAssoc_self]
    · simp [runReactor, h1, hv', hch, lookupD_storeAssoc_self]
  · by_cases hch : ((lookupD st.metastacks n Metastack.empty).popLayer 1 r).1 ≠ new
    · simp [runReactor, h1, hv', hch, lookupD_storeAssoc_self]
    · simp [runReactor, h1, hv', hch, lookupD_storeAssoc_self]
  · by_cases hch : ((lookupD st.metastacks n Metastack.empty).popLayer 1 r).1 ≠ new
    · simp [runReactor, h1, hv', hch, lookupD_storeAssoc_self]
    · simp [runReactor, h1, hv', hch, lookupD_storeAssoc_self]

/-- C8 (witness): the amended theorem at a fresh state: installing
`[("a", 2)]` over a previously empty layer is a change and the counter
moves to 1. -/
theorem C8_reactor_layer_swap_witness :
    lookupD (runReactor EngineState.reset "n" "r" none
        ⟨.ok [("a", 2)], []⟩).1.reactor_changes ("n", "r") 0 = 1 := by
  have h := (C8_reactor_layer_swap EngineState.reset "n" "r" none
    [("a", 2)] [] (by decide) rfl).2.2.2
  exact h.trans (by rfl)

/-! ## C4: the KeyError lifecycle -/

/-- C4: a reactor raising `KeyError` is not fatal — `__run_reactor`
returns `(changed := false, deps)` and records the exception under
`(node, reactor)`; the record is deleted when a later run of the same
pair returns normally or raises `DoNotRunAgain`; and the check at the
end of `_build_node_metadata` raises `MetadataPersistentKeyError` if and
only if records remain and no quit was requested, listing exactly the
remaining offenders with their recorded exceptions. -/
theorem C4_keyerror_lifecycle (st : EngineState) (n r : String)
    (provides : Option (List String)) (e : String) (acc : List String)
    (new : Mapping) (st2 : EngineState) (quit : Bool)
    (h : (n, r) ∉ st.do_not_run_again) :
    (runReactor st n r provides ⟨.keyError e, acc⟩).2 = .ok (false, acc) ∧
    ((runReactor st n r provides ⟨.keyError e, acc⟩).1.keyerrors).find?
      (fun p => p.1 = (n, r)) = some ((n, r), e) ∧
    ((runReactor st n r provides ⟨.ok new, acc⟩).1.keyerrors).find?
      (fun p => p.1 = (n, r)) = none ∧
    ((runReactor st n r provides ⟨.doNotRunAgain, acc⟩).1.keyerrors).find?
      (fun p => p.1 = (n, r)) = none ∧
    (buildFinalCheck st2 quit = .ok () ↔ (st2.keyerrors = [] ∨ quit = true)) ∧
    (st2.keyerrors ≠ [] → quit = false →
      buildFinalCheck st2 quit
        = .error (.metadataPersistentKeyError (pySort keyerrorLe st2.keyerrors)) ∧
      ∀ pr, (pr ∈ pySort keyerrorLe st2.keyerrors ↔ pr ∈ st2.keyerrors)) := by
  refine ⟨?_, ?_, ?_, ?_, ?_, ?_⟩
  · simp [runReactor, h]
  · simp only [runReactor, if_neg h]
    exact find?_storeAssoc_self _ _ _
  · have hkeq : (runReactor st n r provides ⟨.ok new, acc⟩).1.keyerrors
        = eraseAssoc st.keyerrors (n, r) := by
      simp only [runReactor, if_neg h]
      split
      · rfl
      · split
        · rfl
        · rfl
    rw [hkeq]
    exact find?_eraseAssoc_self _ _
  · simp only [runReactor, if_neg h]
    exact find?_eraseAssoc_self _ _
  · rw [buildFinalCheck]
    by_cases hk : st2.keyerrors = []
    · simp [hk]
    · by_cases hq : quit = true
      · simp [hk, hq]
      · have hq' : quit = false := by
          cases quit
          · rfl
          · exact absurd rfl hq
        simp [hk, hq']
  · intro hk hq
    rw [buildFinalCheck, if_pos ⟨hk, hq⟩]
    exact ⟨rfl, fun pr => mem_pySort keyerrorLe pr st2.keyerrors⟩

/-- C4 (witness): at a fresh state, a `KeyError` run records the
exception, a following normal run of the same pair clears it, and with
the record present the final check raises the persistent-KeyError
error naming the pair. -/
theorem C4_keyerror_lifecycle_witness :
    ((runReactor EngineState.reset "n" "r" none
        ⟨.keyError "missing key a", []⟩).1.keyerrors).find?
      (fun p => p.1 = ("n", "r")) = some (("n", "r"), "missing key a") ∧
    buildFinalCheck
        { EngineState.reset with keyerrors := [(("n", "r"), "missing key a")] } false
      = .error (.metadataPersistentKeyError [(("n", "r"), "missing key a")]) := by
  constructor
  · exact (C4_keyerror_lifecycle EngineState.reset "n" "r" none "missing key a"
      [] [] EngineState.reset false (by decide)).2.1
  · have h := ((C4_keyerror_lifecycle EngineState.reset "n" "r" none "missing key a"
      [] []
      { EngineState.reset with keyerrors := [(("n", "r"), "missing key a")] }
      false (by decide)).2.2.2.2.2 (by decide) rfl).1
    exact h.trans (by rfl)

/-! ## C6: the iteration cap -/

theorem runReactor_preserves_node_iterations (st : EngineState) (n r : String)
    (provides : Option (List String)) (run : ReactorRun) :
    (runReactor st n r provides run).1.node_iterations = st.node_iterations := by
  by_cases hm : (n, r) ∈ st.do_not_run_again
  · simp [runReactor, hm]
  · obtain ⟨outcome, acc⟩ := run
    cases outcome with
    | ok new =>
      simp only [runReactor, if_neg hm]
      split
      · rfl
      · split
        · rfl
        · rfl
    | keyError e => simp [runReactor, hm]
    | doNotRunAgain => simp [runReactor, hm]
    | otherError e => simp [runReactor, hm]

theorem foldl_preserves_node_iterations (f : EngineState → String → EngineState)
    (hf : ∀ a x, (f a x).node_iterations = a.node_iterations)
    (l : List String) (acc : EngineState) :
    (l.foldl f acc).node_iterations = acc.node_iterations := by
  induction l generalizing acc with
  | nil => rfl
  | cons x xs ih => rw [List.foldl_cons, ih, hf]

theorem reactorsPass_preserves_node_iterations (sched : List ScheduledReactor)
    (st : EngineState) (n : String) (depsonly anyChanged : Bool) :
    (reactorsPass st n depsonly sched anyChanged).1.node_iterations
      = st.node_iterations := by
  induction sched generalizing st anyChanged with
  | nil => rfl
  | cons r rest ih =>
    rw [reactorsPass]
    split
    · exact ih st anyChanged
    · rcases hrun : runReactor st n r.name r.provides r.run with ⟨st1, res⟩
      have h1 : st1.node_iterations = st.node_iterations := by
        have h := runReactor_preserves_node_iterations st n r.name r.provides r.run
        rw [hrun] at h
        exact h
      rcases res with e | cd
      · simp only [hrun]
        exact h1
      · simp only [hrun]
        rw [ih]
        rw [foldl_preserves_node_iterations]
        · split
          · exact h1
          · exact h1
        · intro a x
          split
          · rfl
          · rfl

theorem checkIterationCount_eq (maxIter : Nat) (st : EngineState) (n : String) :
    checkIterationCount maxIter st n
      = ({ st with node_iterations := storeAssoc st.node_iterations n (lookupD st.node_iterations n 0 + 1) },
        if lookupD st.node_iterations n 0 + 1 > maxIter then
          .error (.iterationLimit n (mostCommon 25 st.reactor_changes))
        else .ok ()) := by
  rw [checkIterationCount]
  simp only [lookupD_storeAssoc_self]
  split
  · rfl
  · rfl

theorem pair_eq_fst {α β : Type} {a c : α} {b d : β} (h : (a, b) = (c, d)) : a = c :=
  congrArg Prod.fst h

theorem ite_pair_fst_node_iterations (c : Prop) [Decidable c]
    (st : EngineState) (n : String) (sched : List ScheduledReactor)
    (depsonly anyChanged : Bool) {st' : EngineState} {res : Except EngineError Bool}
    (h : (if c then reactorsPass st n depsonly sched anyChanged
      else (st, .ok anyChanged)) = (st', res)) :
    st'.node_iterations = st.node_iterations := by
  by_cases hc : c
  · rw [if_pos hc] at h
    have hp := reactorsPass_preserves_node_iterations sched st n depsonly anyChanged
    rw [h] at hp
    exact hp
  · rw [if_neg hc] at h
    rw [← pair_eq_fst h]

theorem runReactorsStability_node_iterations (st2 : EngineState) (n : String)
    (wd wod anyChanged : Bool) :
    (runReactorsStability st2 n wd wod anyChanged).node_iterations
      = st2.node_iterations := by
  rw [runReactorsStability]
  have h3 : ∀ b : EngineState, b.node_iterations = st2.node_iterations →
      ((if wd && anyChanged then
        { b with node_stable := storeAssoc b.node_stable n false }
      else if wod then
        { b with node_stable := storeAssoc b.node_stable n (!anyChanged) }
      else b)).node_iterations = st2.node_iterations := by
    intro b hb
    split
    · exact hb
    · split
      · exact hb
      · exact hb
  apply h3
  split
  · rfl
  · rfl

theorem runReactorsPasses_node_iterations (st0 : EngineState) (n : String)
    (wd wod : Bool) (sched : List ScheduledReactor) :
    (runReactorsPasses st0 n wd wod sched).1.node_iterations
      = st0.node_iterations := by
  rw [runReactorsPasses]
  split
  · rename_i st1 e1 hp1
    exact ite_pair_fst_node_iterations _ st0 n sched true false hp1
  · rename_i st1 any1 hp1
    have h1 := ite_pair_fst_node_iterations _ st0 n sched true false hp1
    split
    · rename_i st2 e2 hp2
      rw [(ite_pair_fst_node_iterations _ st1 n sched false any1 hp2), h1]
    · rename_i st2 anyChanged hp2
      have h2 := ite_pair_fst_node_iterations _ st1 n sched false any1 hp2
      rw [runReactorsStability_node_iterations, h2, h1]

theorem run_reactors_increments (maxIter : Nat) (st : EngineState) (n : String)
    (wd wod : Bool) (sched : List ScheduledReactor) :
    (run_reactors maxIter st n wd wod sched).1.node_iterations
      = storeAssoc st.node_iterations n (lookupD st.node_iterations n 0 + 1) := by
  have hck := checkIterationCount_eq maxIter st n
  rw [run_reactors]
  split
  · rename_i st0 e heq
    rw [hck] at heq
    rw [← pair_eq_fst heq]
  · rename_i st0 u heq
    rw [hck] at heq
    rw [runReactorsPasses_node_iterations, ← pair_eq_fst heq]

theorem run_reactors_cap_error (maxIter : Nat) (st : EngineState) (n : String)
    (wd wod : Bool) (sched : List ScheduledReactor)
    (hcap : lookupD st.node_iterations n 0 + 1 > maxIter) :
    (run_reactors maxIter st n wd wod sched).2
      = .error (.iterationLimit n (mostCommon 25 st.reactor_changes)) := by
  rw [run_reactors, checkIterationCount_eq, if_pos hcap]

/-- C6: every call of `__run_reactors` on a node increments that node's
iteration counter; when the incremented counter exceeds
`MAX_METADATA_ITERATIONS` (1000 unless overridden through
`BW_MAX_METADATA_ITERATIONS`), the call fails with the iteration-limit
`RuntimeError` naming the node and listing the 25 `(node, reactor)`
pairs with the highest change counts — drawn from the recorded change
counter, sorted by descending count, of length `min 25 (number of
recorded pairs)`, with every unlisted pair's count at most every listed
pair's count. -/
theorem C6_iteration_cap (envMax : Option Nat) (st : EngineState) (n : String)
    (wd wod : Bool) (sched : List ScheduledReactor) :
    MAX_METADATA_ITERATIONS none = 1000 ∧
    lookupD (run_reactors (MAX_METADATA_ITERATIONS envMax) st n wd wod
        sched).1.node_iterations n 0
      = lookupD st.node_iterations n 0 + 1 ∧
    (lookupD st.node_iterations n 0 + 1 > MAX_METADATA_ITERATIONS envMax →
      (run_reactors (MAX_METADATA_ITERATIONS envMax) st n wd wod sched).2
        = .error (.iterationLimit n (mostCommon 25 st.reactor_changes))) ∧
    (mostCommon 25 st.reactor_changes).length = min 25 st.reactor_changes.length ∧
    List.Pairwise (fun a b => b.2 ≤ a.2) (mostCommon 25 st.reactor_changes) ∧
    (∀ pr ∈ mostCommon 25 st.reactor_changes, pr ∈ st.reactor_changes) ∧
    (∀ pr ∈ st.reactor_changes, pr ∉ mostCommon 25 st.reactor_changes →
      ∀ qr ∈ mostCommon 25 st.reactor_changes, pr.2 ≤ qr.2) := by
  have hsorted := pairwise_pySort (fun (a b : (String × String) × Nat) => b.2 ≤ a.2)
    (fun a b c hab hbc => by
      simp only [decide_eq_true_eq] at *
      omega)
    (fun a b => by
      by_cases hab : b.2 ≤ a.2
      · exact Or.inl (by simpa using hab)
      · refine Or.inr ?_
        simp only [decide_eq_true_eq]
        omega) st.reactor_changes
  refine ⟨rfl, ?_, ?_, ?_, ?_, ?_, ?_⟩
  · rw [run_reactors_increments, lookupD_storeAssoc_self]
  · exact run_reactors_cap_error _ st n wd wod sched
  · rw [mostCommon, List.length_take, length_pySort]
  · have h := List.Pairwise.sublist (List.take_sublist 25 _) hsorted
    exact h.imp (fun hab => by simpa using hab)
  · intro pr hpr
    exact (mem_pySort _ pr _).mp (List.mem_of_mem_take hpr)
  · intro pr hpr hnotin qr hqr
    have hmem : pr ∈ pySort (fun a b => decide (b.2 ≤ a.2)) st.reactor_changes :=
      (mem_pySort _ pr _).mpr hpr
    rw [← List.take_append_drop 25
      (pySort (fun a b => decide (b.2 ≤ a.2)) st.reactor_changes)] at hmem hsorted
    rcases List.mem_append.mp hmem with hin | hdrop
    · exact absurd hin hnotin
    · have h := (List.pairwise_append.mp hsorted).2.2 qr hqr pr hdrop
      simpa using h

/-- C6 (witness): at a state one step below the default cap, a
`run_reactors` call with no pending reactors trips the iteration limit
naming the node and listing the recorded top changer. -/
theorem C6_iteration_cap_witness :
    (run_reactors (MAX_METADATA_ITERATIONS none)
        { EngineState.reset with
            node_iterations := [("n1", 1000)],
            reactor_changes := [(("n1", "r1"), 7)] }
        "n1" true true []).2
      = .error (.iterationLimit "n1" [(("n1", "r1"), 7)]) := by
  have h := (C6_iteration_cap none
    { EngineState.reset with
        node_iterations := [("n1", 1000)],
        reactor_changes := [(("n1", "r1"), 7)] }
    "n1" true true []).2.2.1 (by decide)
  exact h.trans (by rfl)

/-! ## C2: dependency closure and `_incoming_deps` -/

/-- C2 (counterexample): running the full `prepare_dependencies` on two
items of a concurrency-blocking kind leaves `svc:a` in
`svc:b._flattened_deps` (appended by the concurrency-blocker pass, which
runs after `_flatten_dependencies`), while `svc:b` is not recorded in
`svc:a._incoming_deps` — refuting the claimed closure after `prepare`.
-/
theorem C2_counterexample :
    (prepare_dependencies svcBlock [svcItemA, svcItemB]).map
      (fun out => out.map (fun i => (i.id, i.flattened_deps.getD [], i.incoming_deps)))
      = .ok [("svc:a", [], []), ("svc:b", ["svc:a"], [])] ∧
    (prepare_dependencies svcBlock [svcItemA, svcItemB]).map
      (fun out => decide (∃ i ∈ out, ∃ j ∈ out,
        i.id ∈ j.flattened_deps.getD [] ∧ j.id ∉ i.incoming_deps))
      = .ok true :=
  ⟨rfl, rfl⟩

theorem compute_incoming_spec (mid : List Item) :
    ∀ i ∈ compute_incoming mid, ∀ j ∈ compute_incoming mid,
      i.id ∈ j.flattened_deps.getD [] → j.id ∈ i.incoming_deps := by
  intro i hi j hj hmem
  rw [compute_incoming] at hi hj
  rcases List.mem_map.mp hi with ⟨i0, hi0, hieq⟩
  rcases List.mem_map.mp hj with ⟨j0, hj0, hjeq⟩
  subst hieq
  subst hjeq
  dsimp only at hmem ⊢
  refine List.mem_map.mpr ⟨j0, List.mem_filter.mpr ⟨hj0, ?_⟩, rfl⟩
  exact decide_eq_true hmem

/-- C2 (amended): immediately after `_flatten_dependencies` — before the
concurrency-blocker pass — the incoming-deps index is complete: for
every pair of items `i, j` in its result, `i.id ∈ j._flattened_deps`
implies `j ∈ i._incoming_deps`.  (After the subsequent
`_inject_concurrency_blockers` this can fail, because that pass appends
to `_flattened_deps` without updating `_incoming_deps`, as the
counterexample shows; `_flattened_deps` may also retain selectors that
were dropped from `_deps`, so the reachability half of the original
claim fails as well.) -/
theorem C2_incoming_after_flatten (items out : List Item)
    (h : flatten_dependencies items = .ok out) :
    ∀ i ∈ out, ∀ j ∈ out,
      i.id ∈ j.flattened_deps.getD [] → j.id ∈ i.incoming_deps := by
  rw [flatten_dependencies] at h
  rcases hloop : flatten_items_loop (items.length + 1)
      (items.map (fun i => i.id)) items with e | mid
  · rw [hloop] at h
    cases h
  · rw [hloop] at h
    have hout : compute_incoming mid = out := by
      cases h
      rfl
    rw [← hout]
    exact compute_incoming_spec mid

/-- C2 (witness): the amended theorem applied to a two-item run where
`svc:b` needs `svc:a`: after flattening, `svc:b` appears in
`svc:a._incoming_deps`. -/
theorem C2_incoming_after_flatten_witness :
    ({ svcItemBNeedsA with flattened_deps := some ["svc:a"], incoming_deps := [] } : Item).id ∈
      ({ svcItemA with flattened_deps := some [], incoming_deps := ["svc:b"] } : Item).incoming_deps :=
  C2_incoming_after_flatten [svcItemA, svcItemBNeedsA] _ rfl
    { svcItemA with flattened_deps := some [], incoming_deps := ["svc:b"] }
    (by decide)
    { svcItemBNeedsA with flattened_deps := some ["svc:a"], incoming_deps := [] }
    (by decide)
    (by decide)

/-! ## C7: machinery — growth along the `preceded_by` pass -/

theorem grow_refl (l : List Item) : Grow l l :=
  List.forall₂_same.mpr (fun _ _ => ⟨rfl, List.Subset.refl _, List.Subset.refl _⟩)

theorem grow_trans {a b c : List Item} (h1 : Grow a b) (h2 : Grow b c) :
    Grow a c := by
  induction h1 generalizing c with
  | nil =>
    cases h2
    exact List.Forall₂.nil
  | cons hab h1' ih =>
    cases h2 with
    | cons hbc h2' =>
      exact List.Forall₂.cons
        ⟨hab.1.trans hbc.1, hab.2.1.trans hbc.2.1, hab.2.2.trans hbc.2.2⟩ (ih h2')

theorem grow_updateItem (l : List Item) (iid : String) (f : Item → Item)
    (hf : ∀ i : Item, (f i).static = i.static ∧ i.deps ⊆ (f i).deps ∧
      i.precedes_items ⊆ (f i).precedes_items) :
    Grow l (updateItem iid f l) := by
  rw [Grow, updateItem]
  refine List.forall₂_map_right_iff.mpr (List.forall₂_same.mpr fun x _ => ?_)
  by_cases h : x.id = iid
  · rw [if_pos h]
    exact ⟨(hf x).1.symm, (hf x).2.1, (hf x).2.2⟩
  · rw [if_neg h]
    exact ⟨rfl, List.Subset.refl _, List.Subset.refl _⟩

theorem grow_statics {l l' : List Item} (h : Grow l l') :
    l.map Item.static = l'.map Item.static := by
  induction h with
  | nil => rfl
  | cons hab h' ih =>
    simp only [List.map_cons, ih, hab.1]

theorem grow_getItem {l l' : List Item} (h : Grow l l') (iid : String) :
    ∀ a, getItem l iid = some a → ∃ b, getItem l' iid = some b ∧
      a.static = b.static ∧ a.deps ⊆ b.deps ∧
      a.precedes_items ⊆ b.precedes_items := by
  induction h with
  | nil =>
    intro a ha
    simp [getItem] at ha
  | cons hab h' ih =>
    rename_i x y xs ys
    intro a ha
    have hid : x.id = y.id := congrArg ItemStatic.id hab.1
    by_cases hx : x.id = iid
    · rw [getItem, List.find?_cons_of_pos _ (by simpa using hx)] at ha
      injection ha with ha
      refine ⟨y, ?_, ?_⟩
      · rw [getItem, List.find?_cons_of_pos _ (by simp [← hid, hx])]
      · rw [← ha]
        exact hab
    · rw [getItem, List.find?_cons_of_neg _ (by simpa using hx)] at ha
      rcases ih a ha with ⟨b, hb, hrel⟩
      refine ⟨b, ?_, hrel⟩
      rw [getItem, List.find?_cons_of_neg _ (by simp [← hid, hx])]
      exact hb

theorem getItem_mem_isSome {l : List Item} {b : Item} (hb : b ∈ l) :
    ∃ c, getItem l b.id = some c ∧ c.id = b.id := by
  induction l with
  | nil => cases hb
  | cons x xs ih =>
    by_cases hx : x.id = b.id
    · refine ⟨x, ?_, hx⟩
      rw [getItem, List.find?_cons_of_pos _ (by simpa using hx)]
    · rcases List.mem_cons.mp hb with rfl | hb'
      · exact absurd rfl hx
      · rcases ih hb' with ⟨c, hc, hcid⟩
        refine ⟨c, ?_, hcid⟩
        rw [getItem, List.find?_cons_of_neg _ (by simpa using hx)]
        exact hc

theorem getItem_of_nodup (items : List Item)
    (hnd : (items.map (fun i => i.id)).Nodup) (A : Item) (hA : A ∈ items) :
    getItem items A.id = some A := by
  induction items with
  | nil => cases hA
  | cons x xs ih =>
    rw [List.map_cons, List.nodup_cons] at hnd
    rcases List.mem_cons.mp hA with rfl | hA'
    · rw [getItem, List.find?_cons_of_pos _ (by simp)]
    · have hx : x.id ≠ A.id := by
        intro heq
        exact hnd.1 (heq ▸ List.mem_map.mpr ⟨A, hA', rfl⟩)
      rw [getItem, List.find?_cons_of_neg _ (by simpa using hx)]
      exact ih hnd.2 hA'

theorem foldE_ok_elem {α : Type}
    (f : α → List Item → Except BwError (List Item))
    (hgrow : ∀ x cur out, f x cur = .ok out → Grow cur out) :
    ∀ (l : List α) (cur out : List Item), foldE f l cur = .ok out →
      Grow cur out ∧ ∀ x ∈ l, ∃ pre post, Grow cur pre ∧ f x pre = .ok post ∧
        Grow post out := by
  intro l
  induction l with
  | nil =>
    intro cur out h
    rw [foldE] at h
    injection h with h
    rw [h]
    exact ⟨grow_refl _, by simp⟩
  | cons x rest ih =>
    intro cur out h
    rw [foldE] at h
    rcases hfx : f x cur with e | mid
    · rw [hfx] at h
      cases h
    · rw [hfx] at h
      rcases ih mid out h with ⟨hmo, helems⟩
      have hcm : Grow cur mid := hgrow x cur mid hfx
      refine ⟨grow_trans hcm hmo, ?_⟩
      intro x' hx'
      rcases List.mem_cons.mp hx' with rfl | hx''
      · exact ⟨cur, mid, grow_refl _, hfx, hmo⟩
      · rcases helems x' hx'' with ⟨pre, post, hpre, hstep, hpost⟩
        exact ⟨pre, post, grow_trans hcm hpre, hstep, hpost⟩

theorem foldE_error_elem {α : Type}
    (f : α → List Item → Except BwError (List Item))
    (hgrow : ∀ x cur out, f x cur = .ok out → Grow cur out) :
    ∀ (l : List α) (cur : List Item) (e : BwError), foldE f l cur = .error e →
      ∃ x ∈ l, ∃ pre, Grow cur pre ∧ f x pre = .error e := by
  intro l
  induction l with
  | nil =>
    intro cur e h
    rw [foldE] at h
    cases h
  | cons x rest ih =>
    intro cur e h
    rw [foldE] at h
    rcases hfx : f x cur with e' | mid
    · rw [hfx] at h
      injection h with h
      exact ⟨x, List.mem_cons_self _ _, cur, grow_refl _, by rw [hfx, h]⟩
    · rw [hfx] at h
      rcases ih mid e h with ⟨x', hx', pre, hpre, hstep⟩
      exact ⟨x', List.mem_cons_of_mem _ hx', pre,
        grow_trans (hgrow x cur mid hfx) hpre, hstep⟩

theorem precededByTarget_grow (iid : String) (t : Item)
    (cur out : List Item) (h : precededByTarget iid t cur = .ok out) :
    Grow cur out := by
  rw [precededByTarget] at h
  by_cases ht : t.triggered = true
  · rw [if_pos ht] at h
    injection h with h
    rw [← h]
    refine grow_trans (grow_updateItem cur t.id _ ?_) (grow_updateItem _ iid _ ?_)
    · intro i
      exact ⟨rfl, List.Subset.refl _, List.subset_append_left _ _⟩
    · intro i
      exact ⟨rfl, List.subset_append_left _ _, List.Subset.refl _⟩
  · rw [if_neg ht] at h
    cases h

theorem precededBySelector_grow (iid sel : String)
    (cur out : List Item) (h : precededBySelector iid sel cur = .ok out) :
    Grow cur out := by
  rw [precededBySelector] at h
  rcases hr : resolve_selector sel cur with e | r
  · rw [hr] at h
    cases h
  · rw [hr] at h
    exact (foldE_ok_elem _ (precededByTarget_grow iid) r.elems cur out h).1

theorem precededByItem_grow (iid : String)
    (cur out : List Item) (h : precededByItem iid cur = .ok out) :
    Grow cur out := by
  rw [precededByItem] at h
  rcases hg : getItem cur iid with _ | item
  · rw [hg] at h
    injection h with h
    rw [← h]
    exact grow_refl _
  · rw [hg] at h
    dsimp only at h
    by_cases hguard : item.preceded_by ≠ [] ∧ item.triggered = true
    · rw [if_pos hguard] at h
      cases h
    · rw [if_neg hguard] at h
      exact (foldE_ok_elem _ (precededBySelector_grow iid)
        item.preceded_by cur out h).1

/-! ## C7: machinery — resolution only reads static fields -/

theorem statics_snd (x : SelResult Item) :
    (SelResult.statics x).2 = x.elems.map Item.static := by
  cases x
  · rfl
  · rfl

theorem filter_map_static_congr (q : Item → Bool)
    (hq : ∀ i i' : Item, i.static = i'.static → q i = q i') :
    ∀ {l l' : List Item}, l.map Item.static = l'.map Item.static →
      (l.filter q).map Item.static = (l'.filter q).map Item.static := by
  intro l
  induction l with
  | nil =>
    intro l' h
    rw [List.map_nil] at h
    rw [List.map_eq_nil_iff.mp h.symm]
  | cons a as ih =>
    intro l' h
    cases l' with
    | nil => simp at h
    | cons b bs =>
      simp only [List.map_cons, List.cons.injEq] at h
      obtain ⟨hab, hasbs⟩ := h
      rw [List.filter_cons, List.filter_cons, ← hq a b hab]
      by_cases hqa : q a = true
      · rw [if_pos hqa, if_pos hqa, List.map_cons, List.map_cons, hab, ih hasbs]
      · rw [if_neg hqa, if_neg hqa]
        exact ih hasbs

theorem resolve_selector_statics (sel : String) {l l' : List Item}
    (h : l.map Item.static = l'.map Item.static) :
    (resolve_selector sel l).map SelResult.statics
      = (resolve_selector sel l').map SelResult.statics := by
  rw [resolve_selector, resolve_selector]
  rcases hsp : splitSelector sel with _ | ⟨t, name⟩
  · rfl
  · dsimp only
    by_cases hb : t = "bundle"
    · rw [if_pos hb, if_pos hb]
      dsimp only [Except.map, SelResult.statics]
      rw [filter_map_static_congr (fun item => decide (item.bundle = name))
        (fun i i' hii => by
          have h1 : i.bundle = i'.bundle := congrArg ItemStatic.bundle hii
          simp only [h1]) h]
    · rw [if_neg hb, if_neg hb]
      by_cases htag : t = "tag"
      · rw [if_pos htag, if_pos htag]
        dsimp only [Except.map, SelResult.statics]
        rw [filter_map_static_congr (fun item => decide (name ∈ item.tags))
          (fun i i' hii => by
            have h1 : i.tags = i'.tags := congrArg ItemStatic.tags hii
            simp only [h1]) h]
      · rw [if_neg htag, if_neg htag]
        by_cases hname : name = ""
        · rw [if_pos hname, if_pos hname]
          dsimp only [Except.map, SelResult.statics]
          rw [filter_map_static_congr (fun item => decide (item.itemTypeName = name))
            (fun i i' hii => by
              have h1 : i.itemTypeName = i'.itemTypeName := congrArg ItemStatic.itemTypeName hii
              simp only [h1]) h]
        · rw [if_neg hname, if_neg hname]
          have hf := filter_map_static_congr (fun item => decide (item.id = sel))
            (fun i i' hii => by
              have h1 : i.id = i'.id := congrArg ItemStatic.id hii
              simp only [h1]) h
          rw [find_item, find_item]
          rcases hfl : l.filter (fun item => decide (item.id = sel)) with _ | ⟨a, as⟩
          · rcases hfl' : l'.filter (fun item => decide (item.id = sel)) with _ | ⟨b, bs⟩
            · rw [hfl, hfl']
            · rw [hfl, hfl'] at hf
              simp at hf
          · rcases hfl' : l'.filter (fun item => decide (item.id = sel)) with _ | ⟨b, bs⟩
            · rw [hfl, hfl'] at hf
              simp at hf
            · rw [hfl, hfl'] at hf
              simp only [List.map_cons, List.cons.injEq] at hf
              rw [hfl, hfl']
              dsimp only [Except.map, SelResult.statics]
              rw [List.map_cons, List.map_nil, hf.1]
              rfl

theorem resolve_ok_of_statics {items cur : List Item}
    (h : items.map Item.static = cur.map Item.static) {sel : String}
    {r : SelResult Item} (hr : resolve_selector sel items = .ok r) :
    ∃ r', resolve_selector sel cur = .ok r' ∧
      r'.elems.map Item.static = r.elems.map Item.static := by
  have hst := resolve_selector_statics sel h
  rw [hr] at hst
  rcases hc : resolve_selector sel cur with e | r'
  · rw [hc] at hst
    simp [Except.map] at hst
  · rw [hc] at hst
    refine ⟨r', rfl, ?_⟩
    have hss : SelResult.statics r = SelResult.statics r' := by
      simpa [Except.map] using hst
    rw [← statics_snd, ← statics_snd, hss]

theorem resolve_elems_mem {sel : String} {l : List Item} {r : SelResult Item}
    (h : resolve_selector sel l = .ok r) : ∀ x ∈ r.elems, x ∈ l := by
  rw [resolve_selector] at h
  rcases hsp : splitSelector sel with _ | ⟨t, name⟩
  · rw [hsp] at h
    cases h
  · rw [hsp] at h
    dsimp only at h
    by_cases hb : t = "bundle"
    · rw [if_pos hb] at h
      injection h with h
      rw [← h]
      exact fun x hx => (List.mem_filter.mp hx).1
    · rw [if_neg hb] at h
      by_cases htag : t = "tag"
      · rw [if_pos htag] at h
        injection h with h
        rw [← h]
        exact fun x hx => (List.mem_filter.mp hx).1
      · rw [if_neg htag] at h
        by_cases hname : name = ""
        · rw [if_pos hname] at h
          injection h with h
          rw [← h]
          exact fun x hx => (List.mem_filter.mp hx).1
        · rw [if_neg hname] at h
          rw [find_item] at h
          rcases hfl : l.filter (fun item => decide (item.id = sel)) with _ | ⟨a, as⟩
          · rw [hfl] at h
            cases h
          · rw [hfl] at h
            injection h with h
            rw [← h]
            intro x hx
            have hxa : x = a := by simpa [SelResult.elems] using hx
            subst hxa
            exact (List.mem_filter.mp (hfl ▸ List.mem_cons_self x as)).1

/-! ## C7: machinery — exact shapes of successful steps -/

theorem precededByTarget_ok {iid : String} {t : Item} {cur out : List Item}
    (h : precededByTarget iid t cur = .ok out) :
    t.triggered = true ∧
    out = updateItem iid (fun x => { x with deps := x.deps ++ [t.id] })
      (updateItem t.id
        (fun x => { x with precedes_items := x.precedes_items ++ [iid] }) cur) := by
  rw [precededByTarget] at h
  by_cases ht : t.triggered = true
  · rw [if_pos ht] at h
    injection h with h
    exact ⟨ht, h.symm⟩
  · rw [if_neg ht] at h
    cases h

theorem precededBySelector_ok {iid sel : String} {cur out : List Item}
    (h : precededBySelector iid sel cur = .ok out) :
    ∃ r', resolve_selector sel cur = .ok r' ∧
      foldE (precededByTarget iid) r'.elems cur = .ok out := by
  rw [precededBySelector] at h
  rcases hr : resolve_selector sel cur with e | r'
  · rw [hr] at h
    cases h
  · rw [hr] at h
    exact ⟨r', rfl, h⟩

theorem precededByItem_ok_guard {iid : String} {cur out : List Item} {item : Item}
    (hg : getItem cur iid = some item)
    (h : precededByItem iid cur = .ok out) :
    ¬(item.preceded_by ≠ [] ∧ item.triggered = true) ∧
    foldE (precededBySelector iid) item.preceded_by cur = .ok out := by
  rw [precededByItem, hg] at h
  dsimp only at h
  by_cases hguard : item.preceded_by ≠ [] ∧ item.triggered = true
  · rw [if_pos hguard] at h
    cases h
  · rw [if_neg hguard] at h
    exact ⟨hguard, h⟩

theorem getItem_updateItem (iid j : String) (f : Item → Item)
    (hid : ∀ i, (f i).id = i.id) (l : List Item) :
    getItem (updateItem iid f l) j
      = if j = iid then (getItem l j).map f else getItem l j := by
  induction l with
  | nil =>
    rw [updateItem, List.map_nil]
    by_cases hj : j = iid
    · rw [if_pos hj]
      rfl
    · rw [if_neg hj]
  | cons a as ih =>
    rw [updateItem, List.map_cons]
    rw [updateItem] at ih
    by_cases ha : a.id = iid
    · rw [if_pos ha]
      by_cases hj : j = iid
      · rw [if_pos hj]
        rw [getItem, List.find?_cons_of_pos _ (by simp [hid, ha, hj]),
          getItem, List.find?_cons_of_pos _ (by simp [ha, hj])]
        rfl
      · rw [if_neg hj]
        rw [getItem, List.find?_cons_of_neg _ (by simp [hid, ha]; exact fun hh => hj hh.symm),
          getItem, List.find?_cons_of_neg _ (by simp [ha]; exact fun hh => hj hh.symm)]
        have := ih
        rw [if_neg hj] at this
        exact this
    · rw [if_neg ha]
      by_cases hj : j = iid
      · rw [if_pos hj]
        rw [getItem, List.find?_cons_of_neg _ (by simp; exact fun hh => ha (hh.trans hj)),
          getItem, List.find?_cons_of_neg _ (by simp; exact fun hh => ha (hh.trans hj))]
        have := ih
        rw [if_pos hj] at this
        exact this
      · rw [if_neg hj]
        by_cases haj : a.id = j
        · rw [getItem, List.find?_cons_of_pos _ (by simp [haj]),
            getItem, List.find?_cons_of_pos _ (by simp [haj])]
        · rw [getItem, List.find?_cons_of_neg _ (by simp [haj]),
            getItem, List.find?_cons_of_neg _ (by simp [haj])]
          have := ih
          rw [if_neg hj] at this
          exact this

theorem grow_ids {l l' : List Item} (h : Grow l l') :
    l.map (fun i => i.id) = l'.map (fun i => i.id) := by
  have hs := congrArg (List.map ItemStatic.id) (grow_statics h)
  simpa [List.map_map, Function.comp] using hs

theorem inject_preceded_by_ok_item {items out : List Item}
    (hnd : (items.map (fun i => i.id)).Nodup)
    (hok : inject_preceded_by_dependencies items = .ok out)
    {A : Item} (hA : A ∈ items) :
    ∃ pre post A'', Grow items pre ∧ Grow post out ∧
      getItem pre A.id = some A'' ∧ A.static = A''.static ∧
      ¬(A''.preceded_by ≠ [] ∧ A''.triggered = true) ∧
      foldE (precededBySelector A.id) A''.preceded_by pre = .ok post := by
  rw [inject_preceded_by_dependencies] at hok
  have hmem : A.id ∈ items.map (fun i => i.id) := List.mem_map.mpr ⟨A, hA, rfl⟩
  rcases (foldE_ok_elem _ precededByItem_grow _ items out hok).2 A.id hmem
    with ⟨pre, post, hpre, hstep, hpost⟩
  rcases grow_getItem hpre A.id A (getItem_of_nodup items hnd A hA)
    with ⟨A'', hget, hstat, _, _⟩
  rcases precededByItem_ok_guard hget hstep with ⟨hguard, hfold⟩
  exact ⟨pre, post, A'', hpre, hpost, hget, hstat, hguard, hfold⟩

/-- C7: in the `preceded_by` pass, provided the item ids are unique and
every `preceded_by` selector resolves (against the incoming item list):
if any item with a non-empty `preceded_by` list is itself `triggered`,
the pass fails with a `BundleError`; if any `preceded_by` selector
resolves to a target that is not `triggered`, the pass also fails with a
`BundleError`; and when the pass succeeds, every item with a non-empty
`preceded_by` list is untriggered, and for each of its selectors every
resolved target `B` has `triggered = true`, has the declaring item's id
appended to its `_precedes_items`, while the declaring item's `_deps`
gains `B.id`. -/
theorem C7_preceded_by_injection (items : List Item)
    (hnd : (items.map (fun i => i.id)).Nodup)
    (hres : ∀ X ∈ items, ∀ sel ∈ X.preceded_by,
      ∃ r, resolve_selector sel items = .ok r) :
    ((∃ A ∈ items, A.preceded_by ≠ [] ∧ A.triggered = true) →
      ∃ e, inject_preceded_by_dependencies items = .error e ∧
        e.isBundleError = true) ∧
    ((∃ A ∈ items, ∃ sel ∈ A.preceded_by, ∃ r,
        resolve_selector sel items = .ok r ∧
        ∃ B ∈ r.elems, B.triggered = false) →
      ∃ e, inject_preceded_by_dependencies items = .error e ∧
        e.isBundleError = true) ∧
    (∀ out, inject_preceded_by_dependencies items = .ok out →
      (∀ A ∈ items, A.preceded_by ≠ [] → A.triggered = false) ∧
      (∀ A ∈ items, ∀ sel ∈ A.preceded_by, ∀ r,
        resolve_selector sel items = .ok r → ∀ B ∈ r.elems,
          B.triggered = true ∧
          (∀ A2 ∈ out, A2.id = A.id → B.id ∈ A2.deps) ∧
          (∀ B2 ∈ out, B2.id = B.id → A.id ∈ B2.precedes_items))) := by
  have herr_bundle : ∀ e, inject_preceded_by_dependencies items = .error e →
      e.isBundleError = true := by
    intro e hE
    rw [inject_preceded_by_dependencies] at hE
    rcases foldE_error_elem _ precededByItem_grow _ items e hE
      with ⟨iid, hiid, pre, hpre, hstep⟩
    rcases List.mem_map.mp hiid with ⟨X, hX, rfl⟩
    rcases grow_getItem hpre X.id X (getItem_of_nodup items hnd X hX)
      with ⟨X'', hget, hstat, _, _⟩
    rw [precededByItem, hget] at hstep
    dsimp only at hstep
    by_cases hguard : X''.preceded_by ≠ [] ∧ X''.triggered = true
    · rw [if_pos hguard] at hstep
      injection hstep with hstep
      rw [← hstep]
      rfl
    · rw [if_neg hguard] at hstep
      rcases foldE_error_elem _ (precededBySelector_grow X.id) _ pre e hstep
        with ⟨sel, hsel, pre2, hpre2, hstep2⟩
      have hpbeq : X.preceded_by = X''.preceded_by :=
        congrArg ItemStatic.preceded_by hstat
      rcases hres X hX sel (hpbeq ▸ hsel) with ⟨r, hr⟩
      have hstatics : items.map Item.static = pre2.map Item.static :=
        grow_statics (grow_trans hpre hpre2)
      rcases resolve_ok_of_statics hstatics hr with ⟨r', hr', _⟩
      rw [precededBySelector, hr'] at hstep2
      rcases foldE_error_elem _ (precededByTarget_grow X.id) _ pre2 e hstep2
        with ⟨tgt, htgt, pre3, _, hstep3⟩
      rw [precededByTarget] at hstep3
      by_cases htrig : tgt.triggered = true
      · rw [if_pos htrig] at hstep3
        cases hstep3
      · rw [if_neg htrig] at hstep3
        injection hstep3 with hstep3
        rw [← hstep3]
        rfl
  have htrig_of_ok : ∀ out, inject_preceded_by_dependencies items = .ok out →
      ∀ A ∈ items, ∀ sel ∈ A.preceded_by, ∀ r,
        resolve_selector sel items = .ok r → ∀ B ∈ r.elems,
          B.triggered = true := by
    intro out hok A hA sel hsel r hr B hB
    rcases inject_preceded_by_ok_item hnd hok hA
      with ⟨pre, post, A'', hpre, hpost, hgetA, hstat, hguard, hfold⟩
    have hpbeq : A.preceded_by = A''.preceded_by :=
      congrArg ItemStatic.preceded_by hstat
    rcases (foldE_ok_elem _ (precededBySelector_grow A.id) _ pre post hfold).2
        sel (hpbeq ▸ hsel)
      with ⟨pre2, post2, hpre2, hselstep, hpost2⟩
    rcases precededBySelector_ok hselstep with ⟨r', hr', hfold2⟩
    have hstatics : items.map Item.static = pre2.map Item.static :=
      grow_statics (grow_trans hpre hpre2)
    rcases resolve_ok_of_statics hstatics hr with ⟨r'', hr'', hmapeq⟩
    have hrr : r'' = r' := by
      rw [hr''] at hr'
      injection hr'
    rw [hrr] at hmapeq
    have hBs : B.static ∈ r'.elems.map Item.static := by
      rw [hmapeq]
      exact List.mem_map.mpr ⟨B, hB, rfl⟩
    rcases List.mem_map.mp hBs with ⟨B', hB', hBstat⟩
    rcases (foldE_ok_elem _ (precededByTarget_grow A.id) _ pre2 post2 hfold2).2
        B' hB'
      with ⟨pre3, post3, hpre3, htgtstep, hpost3⟩
    rcases precededByTarget_ok htgtstep with ⟨hBtrig, _⟩
    have htr2 : B'.triggered = B.triggered :=
      congrArg ItemStatic.triggered hBstat
    rw [← htr2]
    exact hBtrig
  refine ⟨?_, ?_, ?_⟩
  · rintro ⟨A, hA, hpb, htr⟩
    rcases hE : inject_preceded_by_dependencies items with e | out
    · exact ⟨e, rfl, herr_bundle e hE⟩
    · exfalso
      rcases inject_preceded_by_ok_item hnd hE hA
        with ⟨pre, post, A'', _, _, _, hstat, hguard, _⟩
      have hpb2 : A.preceded_by = A''.preceded_by :=
        congrArg ItemStatic.preceded_by hstat
      have htr2 : A.triggered = A''.triggered :=
        congrArg ItemStatic.triggered hstat
      exact hguard ⟨hpb2 ▸ hpb, htr2 ▸ htr⟩
  · rintro ⟨A, hA, sel, hsel, r, hr, B, hB, hBuntrig⟩
    rcases hE : inject_preceded_by_dependencies items with e | out
    · exact ⟨e, rfl, herr_bundle e hE⟩
    · exfalso
      have hcontra := htrig_of_ok out hE A hA sel hsel r hr B hB
      rw [hBuntrig] at hcontra
      cases hcontra
  · intro out hok
    have hgrowall : Grow items out := by
      rw [inject_preceded_by_dependencies] at hok
      exact (foldE_ok_elem _ precededByItem_grow _ items out hok).1
    have hndout : (out.map (fun i => i.id)).Nodup := by
      rw [← grow_ids hgrowall]
      exact hnd
    constructor
    · intro A hA hpb
      rcases inject_preceded_by_ok_item hnd hok hA
        with ⟨pre, post, A'', _, _, _, hstat, hguard, _⟩
      by_cases htr : A.triggered = true
      · have hpb2 : A.preceded_by = A''.preceded_by :=
          congrArg ItemStatic.preceded_by hstat
        have htr2 : A.triggered = A''.triggered :=
          congrArg ItemStatic.triggered hstat
        exact absurd ⟨hpb2 ▸ hpb, htr2 ▸ htr⟩ hguard
      · simpa using htr
    · intro A hA sel hsel r hr B hB
      rcases inject_preceded_by_ok_item hnd hok hA
        with ⟨pre, post, A'', hpre, hpost, hgetA, hstat, hguard, hfold⟩
      have hpbeq : A.preceded_by = A''.preceded_by :=
        congrArg ItemStatic.preceded_by hstat
      rcases (foldE_ok_elem _ (precededBySelector_grow A.id) _ pre post hfold).2
          sel (hpbeq ▸ hsel)
        with ⟨pre2, post2, hpre2, hselstep, hpost2⟩
      rcases precededBySelector_ok hselstep with ⟨r', hr', hfold2⟩
      have hstatics : items.map Item.static = pre2.map Item.static :=
        grow_statics (grow_trans hpre hpre2)
      rcases resolve_ok_of_statics hstatics hr with ⟨r'', hr'', hmapeq⟩
      have hrr : r'' = r' := by
        rw [hr''] at hr'
        injection hr'
      rw [hrr] at hmapeq
      have hBs : B.static ∈ r'.elems.map Item.static := by
        rw [hmapeq]
        exact List.mem_map.mpr ⟨B, hB, rfl⟩
      rcases List.mem_map.mp hBs with ⟨B', hB', hBstat⟩
      rcases (foldE_ok_elem _ (precededByTarget_grow A.id) _ pre2 post2 hfold2).2
          B' hB'
        with ⟨pre3, post3, hpre3, htgtstep, hpost3⟩
      rcases precededByTarget_ok htgtstep with ⟨hBtrig, hshape⟩
      have hBid : B'.id = B.id := congrArg ItemStatic.id hBstat
      refine ⟨?_, ?_, ?_⟩
      · have htr2 : B'.triggered = B.triggered :=
          congrArg ItemStatic.triggered hBstat
        rw [← htr2]
        exact hBtrig
      · -- B.id lands in the declaring item's deps
        rcases grow_getItem (grow_trans hpre (grow_trans hpre2 hpre3)) A.id A
            (getItem_of_nodup items hnd A hA)
          with ⟨A3, hgetA3, _, _, _⟩
        have hdepsmem : ∃ E, getItem post3 A.id = some E ∧ B.id ∈ E.deps := by
          rw [hshape]
          rw [getItem_updateItem A.id A.id
            (fun x => { x with deps := x.deps ++ [B'.id] }) (fun i => rfl), if_pos rfl]
          rw [getItem_updateItem B'.id A.id
            (fun x => { x with precedes_items := x.precedes_items ++ [A.id] }) (fun i => rfl)]
          by_cases hAB : A.id = B'.id
          · rw [if_pos hAB, hgetA3]
            exact ⟨_, rfl, by simp [hBid]⟩
          · rw [if_neg hAB, hgetA3]
            exact ⟨_, rfl, by simp [hBid]⟩
        rcases hdepsmem with ⟨E, hgetE, hmemE⟩
        rcases grow_getItem (grow_trans hpost3 (grow_trans hpost2 hpost)) A.id E hgetE
          with ⟨Afinal, hgetAf, _, hsubdeps, _⟩
        intro A' hA' hAid
        have hAeq : A' = Afinal := by
          have h1 := getItem_of_nodup out hndout A' hA'
          rw [hAid] at h1
          rw [h1] at hgetAf
          injection hgetAf
        rw [hAeq]
        exact hsubdeps hmemE
      · -- A.id lands in the target's precedes_items
        have hB'mem : B' ∈ pre2 := resolve_elems_mem hr' B' hB'
        rcases getItem_mem_isSome hB'mem with ⟨c, hgetc, hcid⟩
        rcases grow_getItem hpre3 B'.id c hgetc with ⟨c3, hgetc3, _, _, _⟩
        have hprecmem : ∃ E, getItem post3 B.id = some E ∧
            A.id ∈ E.precedes_items := by
          rw [hshape]
          rw [getItem_updateItem A.id B.id
            (fun x => { x with deps := x.deps ++ [B'.id] }) (fun i => rfl)]
          by_cases hBA : B.id = A.id
          · rw [if_pos hBA]
            rw [getItem_updateItem B'.id B.id
              (fun x => { x with precedes_items := x.precedes_items ++ [A.id] }) (fun i => rfl),
              if_pos hBid.symm]
            rw [hBid] at hgetc3
            rw [hgetc3]
            exact ⟨_, rfl, by simp⟩
          · rw [if_neg hBA]
            rw [getItem_updateItem B'.id B.id
              (fun x => { x with precedes_items := x.precedes_items ++ [A.id] }) (fun i => rfl),
              if_pos hBid.symm]
            rw [hBid] at hgetc3
            rw [hgetc3]
            exact ⟨_, rfl, by simp⟩
        rcases hprecmem with ⟨E, hgetE, hmemE⟩
        rcases grow_getItem (grow_trans hpost3 (grow_trans hpost2 hpost)) B.id E hgetE
          with ⟨Bfinal, hgetBf, _, _, hsubprec⟩
        intro B2 hB2 hB2id
        have hBeq : B2 = Bfinal := by
          have h1 := getItem_of_nodup out hndout B2 hB2
          rw [hB2id] at h1
          rw [h1] at hgetBf
          injection hgetBf
        rw [hBeq]
        exact hsubprec hmemE

/-- C7 (witness): the theorem applied to an untriggered file item whose
`preceded_by` names a triggered action — after the pass the file item's
`_deps` contains the action's id — and to one whose `preceded_by` names
an untriggered action, which makes the pass fail with a `BundleError`. -/
theorem C7_preceded_by_injection_witness :
    ("action:x" ∈ ({ pbItemA with deps := ["action:x"] } : Item).deps) ∧
    (∃ e, inject_preceded_by_dependencies [pbItemAU, pbItemU] = .error e ∧
      e.isBundleError = true) := by
  constructor
  · have hres : ∀ X ∈ [pbItemA, pbItemT], ∀ sel ∈ X.preceded_by,
        ∃ r, resolve_selector sel [pbItemA, pbItemT] = .ok r := by
      intro X hX sel hsel
      fin_cases hX
      · fin_cases hsel
        exact ⟨_, rfl⟩
      · fin_cases hsel
    have hmain := (C7_preceded_by_injection [pbItemA, pbItemT] (by decide)
      hres).2.2
      [{ pbItemA with deps := ["action:x"] },
        { pbItemT with precedes_items := ["file:/c"] }] rfl
    have happ := (hmain.2 pbItemA (by decide) "action:x" (by decide)
      (.lst [pbItemT]) rfl pbItemT (by decide)).2.1
    exact happ { pbItemA with deps := ["action:x"] } (by decide) (by decide)
  · have hres2 : ∀ X ∈ [pbItemAU, pbItemU], ∀ sel ∈ X.preceded_by,
        ∃ r, resolve_selector sel [pbItemAU, pbItemU] = .ok r := by
      intro X hX sel hsel
      fin_cases hX
      · fin_cases hsel
        exact ⟨_, rfl⟩
      · fin_cases hsel
    exact (C7_preceded_by_injection [pbItemAU, pbItemU] (by decide) hres2).2.1
      ⟨pbItemAU, by decide, "action:y", by decide, .lst [pbItemU], rfl,
        pbItemU, by decide, rfl⟩

/-! ## C9: machinery — basic facts about the flattening relations -/

theorem updateItem_cons (iid : String) (g : Item → Item) (x : Item)
    (xs : List Item) :
    updateItem iid g (x :: xs)
      = (if x.id = iid then g x else x) :: updateItem iid g xs := rfl

theorem unflat_cons (y : Item) (l : List Item) :
    unflat (y :: l)
      = unflat l + (if y.flattened_deps.isNone = true then 1 else 0) := by
  rw [unflat, unflat, List.countP_cons]

theorem isNone_eq_false_of_isSome {α : Type} {o : Option α}
    (h : o.isSome = true) : o.isNone = false := by
  cases o
  · simp at h
  · rfl

theorem isNone_of_not_isSome {α : Type} {o : Option α}
    (h : o.isSome = false) : o.isNone = true := by
  cases o
  · rfl
  · simp at h

theorem isSome_eq_false_of_isNone {α : Type} {o : Option α}
    (h : o.isNone = true) : o.isSome = false := by
  cases o
  · rfl
  · simp at h

theorem getItem_mem {l : List Item} {j : String} {a : Item}
    (h : getItem l j = some a) : a ∈ l := by
  rw [getItem] at h
  exact List.mem_of_find?_eq_some h

theorem getItem_id {l : List Item} {j : String} {a : Item}
    (h : getItem l j = some a) : a.id = j := by
  rw [getItem] at h
  have := List.find?_some h
  simpa using this

theorem count_pyRemove_self [DecidableEq α] [BEq α] [LawfulBEq α]
    (x : α) (l : List α) :
    List.count x (pyRemove x l) = List.count x l - 1 := by
  induction l with
  | nil => rfl
  | cons y ys ih =>
    rw [pyRemove]
    by_cases hyx : y = x
    · rw [if_pos hyx, hyx, List.count_cons_self]
      omega
    · rw [if_neg hyx, List.count_cons_of_ne (fun h => hyx h.symm),
        List.count_cons_of_ne (fun h => hyx h.symm), ih]

theorem count_pyRemove_ne [DecidableEq α] [BEq α] [LawfulBEq α]
    {d x : α} (h : d ≠ x) (l : List α) :
    List.count d (pyRemove x l) = List.count d l := by
  induction l with
  | nil => rfl
  | cons y ys ih =>
    rw [pyRemove]
    by_cases hyx : y = x
    · rw [if_pos hyx, hyx, List.count_cons_of_ne h]
    · rw [if_neg hyx]
      by_cases hdy : d = y
      · rw [hdy] at ih ⊢
        rw [List.count_cons_self, List.count_cons_self, ih]
      · rw [List.count_cons_of_ne hdy, List.count_cons_of_ne hdy, ih]

theorem pyRemove_sub [DecidableEq α] (x : α) (l : List α) :
    pyRemove x l ⊆ l := by
  induction l with
  | nil => exact List.Subset.refl _
  | cons y ys ih =>
    rw [pyRemove]
    by_cases hyx : y = x
    · rw [if_pos hyx]
      exact List.subset_cons_self _ _
    · rw [if_neg hyx]
      exact List.cons_subset_cons y ih

theorem flatRest_refl (base : List Item) (a : Item) : FlatRest base a a := by
  refine ⟨fun h => ⟨h, rfl⟩, fun _ => rfl, fun h1 h2 => ?_⟩
  rw [h1] at h2
  cases h2

theorem flatRest_trans {base : List Item} {a b c : Item}
    (h1 : FlatRest base a b) (h2 : FlatRest base b c) : FlatRest base a c := by
  obtain ⟨m1, u1, n1⟩ := h1
  obtain ⟨m2, u2, n2⟩ := h2
  refine ⟨?_, ?_, ?_⟩
  · intro ha
    obtain ⟨hb, hdb⟩ := m1 ha
    obtain ⟨hc, hdc⟩ := m2 hb
    exact ⟨hc, hdc.trans hdb⟩
  · intro hc
    have hcb := u2 hc
    have hb : b.flattened_deps.isSome = false := by rw [← hcb]; exact hc
    rw [hcb, u1 hb]
  · intro ha hc
    rcases hb : b.flattened_deps.isSome with _ | _
    · obtain ⟨hne, hsub, hres⟩ := n2 hb hc
      rw [u1 hb] at hsub hres
      exact ⟨hne, hsub, hres⟩
    · obtain ⟨hne, hsub, hres⟩ := n1 ha hb
      obtain ⟨hc', hdc⟩ := m2 hb
      refine ⟨fun d hd hmem => ?_, ?_, hres⟩
      · rw [hdc] at hmem
        exact hne d hd hmem
      · rw [hdc]
        exact hsub

theorem flatRest_deps_sub {base : List Item} {a b : Item}
    (h : FlatRest base a b) : b.deps ⊆ a.deps := by
  obtain ⟨m, u, n⟩ := h
  rcases hb : b.flattened_deps.isSome with _ | _
  · rw [u hb]
    exact List.Subset.refl _
  · rcases ha : a.flattened_deps.isSome with _ | _
    · exact (n ha hb).2.1
    · rw [(m ha).2]
      exact List.Subset.refl _

theorem flatRest_mark {base : List Item} {a b : Item} (h : FlatRest base a b)
    (ha : a.flattened_deps.isSome = true) : b.flattened_deps.isSome = true :=
  (h.1 ha).1

theorem flatStep_refl (base : List Item) (a : Item) : FlatStep base a a :=
  ⟨rfl, flatRest_refl base a⟩

theorem flatStep_trans {base : List Item} {a b c : Item}
    (h1 : FlatStep base a b) (h2 : FlatStep base b c) : FlatStep base a c :=
  ⟨h1.1.trans h2.1, flatRest_trans h1.2 h2.2⟩

theorem flatStep_mark {base : List Item} : ∀ a b : Item, FlatStep base a b →
    a.flattened_deps.isSome = true → b.flattened_deps.isSome = true :=
  fun _ _ h ha => flatRest_mark h.2 ha

theorem flatStep_deps_sub {base : List Item} {a b : Item}
    (h : FlatStep base a b) : b.deps ⊆ a.deps :=
  flatRest_deps_sub h.2

theorem itemsStep_refl (base : List Item) (itemId : String) (a : Item) :
    ItemsStep base itemId a a :=
  ⟨rfl, fun _ => flatRest_refl base a, fun _ => ⟨rfl, fun h => h⟩⟩

theorem itemsStep_trans {base : List Item} {itemId : String} {a b c : Item}
    (h1 : ItemsStep base itemId a b) (h2 : ItemsStep base itemId b c) :
    ItemsStep base itemId a c := by
  obtain ⟨s1, o1, i1⟩ := h1
  obtain ⟨s2, o2, i2⟩ := h2
  have hid : a.id = b.id := congrArg ItemStatic.id s1
  refine ⟨s1.trans s2, ?_, ?_⟩
  · intro hne
    have hne' : b.id ≠ itemId := by rw [← hid]; exact hne
    exact flatRest_trans (o1 hne) (o2 hne')
  · intro heq
    have heq' : b.id = itemId := by rw [← hid]; exact heq
    obtain ⟨d1, m1⟩ := i1 heq
    obtain ⟨d2, m2⟩ := i2 heq'
    exact ⟨d2.trans d1, fun h => m2 (m1 h)⟩

theorem itemsStep_mark {base : List Item} {itemId : String} :
    ∀ a b : Item, ItemsStep base itemId a b →
      a.flattened_deps.isSome = true → b.flattened_deps.isSome = true := by
  intro a b h ha
  by_cases hid : a.id = itemId
  · exact (h.2.2 hid).2 ha
  · exact flatRest_mark (h.2.1 hid) ha

theorem itemsStep_deps_sub {base : List Item} {itemId : String} {a b : Item}
    (h : ItemsStep base itemId a b) : b.deps ⊆ a.deps := by
  by_cases hid : a.id = itemId
  · rw [(h.2.2 hid).1]
    exact List.Subset.refl _
  · exact flatRest_deps_sub (h.2.1 hid)

theorem midStep_mark {base : List Item} {itemId : String} {dl : List String} :
    ∀ a b : Item, MidStep base itemId dl a b →
      a.flattened_deps.isSome = true → b.flattened_deps.isSome = true := by
  intro a b h ha
  by_cases hid : a.id = itemId
  · exact (h.2.2 hid).2.1 ha
  · exact flatRest_mark (h.2.1 hid) ha

theorem midStep_deps_sub {base : List Item} {itemId : String}
    {dl : List String} {a b : Item} (h : MidStep base itemId dl a b) :
    b.deps ⊆ a.deps := by
  by_cases hid : a.id = itemId
  · exact (h.2.2 hid).1
  · exact flatRest_deps_sub (h.2.1 hid)

theorem forall₂_comp {R S T : Item → Item → Prop}
    (h : ∀ a b c, R a b → S b c → T a c) :
    ∀ {l1 l2 l3 : List Item}, List.Forall₂ R l1 l2 → List.Forall₂ S l2 l3 →
      List.Forall₂ T l1 l3 := by
  intro l1 l2 l3 h12
  induction h12 generalizing l3 with
  | nil =>
    intro h23
    cases h23
    exact List.Forall₂.nil
  | cons hab h' ih =>
    intro h23
    cases h23 with
    | cons hbc h'' => exact List.Forall₂.cons (h _ _ _ hab hbc) (ih h'')

theorem forall₂_mem_right {R : Item → Item → Prop} :
    ∀ {l l' : List Item}, List.Forall₂ R l l' → ∀ b ∈ l', ∃ a ∈ l, R a b := by
  intro l l' h
  induction h with
  | nil =>
    intro b hb
    cases hb
  | cons hab h' ih =>
    intro b hb
    rcases List.mem_cons.mp hb with rfl | hb'
    · exact ⟨_, List.mem_cons_self _ _, hab⟩
    · rcases ih b hb' with ⟨a, ha, hr⟩
      exact ⟨a, List.mem_cons_of_mem _ ha, hr⟩

theorem forall₂_statics_of {R : Item → Item → Prop}
    (hs : ∀ a b, R a b → a.static = b.static) :
    ∀ {l l' : List Item}, List.Forall₂ R l l' →
      l.map Item.static = l'.map Item.static := by
  intro l l' h
  induction h with
  | nil => rfl
  | cons hab h' ih => simp only [List.map_cons, ih, hs _ _ hab]

theorem forall₂_getItem_of {R : Item → Item → Prop}
    (hs : ∀ a b, R a b → a.static = b.static) (j : String) :
    ∀ {l l' : List Item}, List.Forall₂ R l l' →
      ∀ a, getItem l j = some a → ∃ b, getItem l' j = some b ∧ R a b := by
  intro l l' h
  induction h with
  | nil =>
    intro a ha
    simp [getItem] at ha
  | cons hab h' ih =>
    rename_i x y xs ys
    intro a ha
    have hid : x.id = y.id := congrArg ItemStatic.id (hs _ _ hab)
    by_cases hx : x.id = j
    · rw [getItem, List.find?_cons_of_pos _ (by simpa using hx)] at ha
      injection ha with ha
      refine ⟨y, ?_, ?_⟩
      · rw [getItem, List.find?_cons_of_pos _ (by simp [← hid, hx])]
      · rw [← ha]
        exact hab
    · rw [getItem, List.find?_cons_of_neg _ (by simpa using hx)] at ha
      rcases ih a ha with ⟨b, hb, hrel⟩
      refine ⟨b, ?_, hrel⟩
      rw [getItem, List.find?_cons_of_neg _ (by simp [← hid, hx])]
      exact hb

theorem forall₂_getItem_none_of {R : Item → Item → Prop}
    (hs : ∀ a b, R a b → a.static = b.static) (j : String)
    {l l' : List Item} (h : List.Forall₂ R l l')
    (hn : getItem l j = none) : getItem l' j = none := by
  rw [getItem, List.find?_eq_none] at hn ⊢
  intro y hy
  rcases forall₂_mem_right h y hy with ⟨a, ha, hr⟩
  have hid : a.id = y.id := congrArg ItemStatic.id (hs _ _ hr)
  have hna := hn a ha
  rw [← hid]
  exact hna

theorem forall₂_updateItem_mem {R : Item → Item → Prop}
    (iid : String) (g : Item → Item) :
    ∀ l : List Item, (∀ x ∈ l, x.id ≠ iid → R x x) →
      (∀ x ∈ l, x.id = iid → R x (g x)) →
      List.Forall₂ R l (updateItem iid g l) := by
  intro l
  induction l with
  | nil =>
    intro _ _
    exact List.Forall₂.nil
  | cons a as ih =>
    intro h1 h2
    rw [updateItem_cons]
    by_cases ha : a.id = iid
    · rw [if_pos ha]
      exact List.Forall₂.cons (h2 a (List.mem_cons_self a as) ha)
        (ih (fun x hx => h1 x (List.mem_cons_of_mem _ hx))
          (fun x hx => h2 x (List.mem_cons_of_mem _ hx)))
    · rw [if_neg ha]
      exact List.Forall₂.cons (h1 a (List.mem_cons_self a as) ha)
        (ih (fun x hx => h1 x (List.mem_cons_of_mem _ hx))
          (fun x hx => h2 x (List.mem_cons_of_mem _ hx)))

theorem mark_all_of_forall₂ {R : Item → Item → Prop} {itemId : String}
    (hs : ∀ a b, R a b → a.static = b.static)
    (hm : ∀ a b, R a b → a.flattened_deps.isSome = true →
      b.flattened_deps.isSome = true)
    {l l' : List Item} (h : List.Forall₂ R l l')
    (hmk : ∀ a ∈ l, a.id = itemId → a.flattened_deps.isSome = true) :
    ∀ b ∈ l', b.id = itemId → b.flattened_deps.isSome = true := by
  intro b hb hbid
  rcases forall₂_mem_right h b hb with ⟨a, ha, hr⟩
  have hid : a.id = b.id := congrArg ItemStatic.id (hs _ _ hr)
  exact hm _ _ hr (hmk a ha (hid.trans hbid))

theorem depsBounded_of_forall₂ {R : Item → Item → Prop} {base : List Item}
    (hs : ∀ a b, R a b → a.static = b.static)
    (hd : ∀ a b, R a b → b.deps ⊆ a.deps)
    {l l' : List Item} (h : List.Forall₂ R l l') (hdb : DepsBounded base l) :
    DepsBounded base l' := by
  intro b hb g hg hgid
  rcases forall₂_mem_right h b hb with ⟨a, ha, hr⟩
  have hid : a.id = b.id := congrArg ItemStatic.id (hs _ _ hr)
  exact fun d hd' =>
    hdb a ha g hg (hgid.trans hid.symm) (hd _ _ hr hd')

theorem unflat_le_of_forall₂ {R : Item → Item → Prop}
    (hm : ∀ a b, R a b → a.flattened_deps.isSome = true →
      b.flattened_deps.isSome = true) :
    ∀ {l l' : List Item}, List.Forall₂ R l l' → unflat l' ≤ unflat l := by
  intro l l' h
  induction h with
  | nil => exact Nat.le_refl _
  | cons hab h' ih =>
    rename_i x y xs ys
    rw [unflat_cons, unflat_cons]
    by_cases hxs : x.flattened_deps.isSome = true
    · have hys := hm _ _ hab hxs
      rw [isNone_eq_false_of_isSome hxs, isNone_eq_false_of_isSome hys,
        if_neg Bool.false_ne_true]
      omega
    · have hxf : x.flattened_deps.isSome = false := by
        revert hxs
        cases x.flattened_deps.isSome
        · intro _
          rfl
        · intro h2
          exact absurd rfl h2
      rw [isNone_of_not_isSome hxf, if_pos rfl]
      by_cases hy1 : y.flattened_deps.isNone = true
      · rw [if_pos hy1]
        omega
      · rw [if_neg hy1]
        omega

theorem unflat_pos_of_mem {l : List Item} {a : Item} (ha : a ∈ l)
    (hu : a.flattened_deps.isSome = false) : 1 ≤ unflat l := by
  rw [unflat]
  exact List.countP_pos_iff.mpr ⟨a, ha, isNone_of_not_isSome hu⟩

theorem unflat_updateItem_le (iid : String) {g : Item → Item}
    (hgm : ∀ i, (g i).flattened_deps.isSome = true) :
    ∀ l : List Item, unflat (updateItem iid g l) ≤ unflat l := by
  intro l
  induction l with
  | nil => exact Nat.le_refl _
  | cons x xs ih =>
    rw [updateItem_cons, unflat_cons, unflat_cons]
    by_cases hx : x.id = iid
    · rw [if_pos hx, isNone_eq_false_of_isSome (hgm x),
        if_neg Bool.false_ne_true]
      by_cases hxn : x.flattened_deps.isNone = true
      · rw [if_pos hxn]
        omega
      · rw [if_neg hxn]
        omega
    · rw [if_neg hx]
      exact Nat.add_le_add ih (Nat.le_refl _)

theorem unflat_updateItem_mark {iid : String} {g : Item → Item}
    (hgm : ∀ i, (g i).flattened_deps.isSome = true) :
    ∀ {l : List Item} {a : Item}, a ∈ l → a.id = iid →
      a.flattened_deps.isSome = false →
      unflat (updateItem iid g l) + 1 ≤ unflat l := by
  intro l
  induction l with
  | nil =>
    intro a ha
    cases ha
  | cons x xs ih =>
    intro a ha haid hunm
    rw [updateItem_cons, unflat_cons, unflat_cons]
    rcases List.mem_cons.mp ha with rfl | ha'
    · rw [if_pos haid, isNone_eq_false_of_isSome (hgm a),
        if_neg Bool.false_ne_true, isNone_of_not_isSome hunm, if_pos rfl]
      have := unflat_updateItem_le iid hgm xs
      omega
    · by_cases hx : x.id = iid
      · rw [if_pos hx, isNone_eq_false_of_isSome (hgm x),
          if_neg Bool.false_ne_true]
        have := ih ha' haid hunm
        by_cases hxn : x.flattened_deps.isNone = true
        · rw [if_pos hxn]
          omega
        · rw [if_neg hxn]
          omega
      · rw [if_neg hx]
        have := ih ha' haid hunm
        by_cases hxn : x.flattened_deps.isNone = true
        · rw [if_pos hxn]
          omega
        · rw [if_neg hxn]
          omega

theorem unflat_updateItem_congr {iid : String} {g : Item → Item}
    (hgf : ∀ i, (g i).flattened_deps = i.flattened_deps) :
    ∀ l : List Item, unflat (updateItem iid g l) = unflat l := by
  intro l
  induction l with
  | nil => rfl
  | cons x xs ih =>
    rw [updateItem_cons, unflat_cons, unflat_cons, ih]
    by_cases hx : x.id = iid
    · rw [if_pos hx, hgf x]
    · rw [if_neg hx]

theorem statics_updateItem {iid : String} {g : Item → Item}
    (hg : ∀ i, (g i).static = i.static) (l : List Item) :
    (updateItem iid g l).map Item.static = l.map Item.static := by
  induction l with
  | nil => rfl
  | cons x xs ih =>
    rw [updateItem_cons, List.map_cons, List.map_cons, ih]
    by_cases hx : x.id = iid
    · rw [if_pos hx, hg x]
    · rw [if_neg hx]

theorem depsBounded_updateItem {base : List Item} {iid : String}
    {g : Item → Item} (hgd : ∀ i, (g i).deps ⊆ i.deps)
    (hgid : ∀ i, (g i).id = i.id) {l : List Item} (h : DepsBounded base l) :
    DepsBounded base (updateItem iid g l) := by
  intro b hb gg hgg hggid
  rw [updateItem] at hb
  rcases List.mem_map.mp hb with ⟨a, ha, heq⟩
  by_cases hai : a.id = iid
  · rw [if_pos hai] at heq
    rw [← heq] at hggid ⊢
    have hgga : gg.id = a.id := hggid.trans (hgid a)
    exact (hgd a).trans (h a ha gg hgg hgga)
  · rw [if_neg hai] at heq
    rw [← heq] at hggid ⊢
    exact h a ha gg hgg hggid

theorem mark_all_updateItem {itemId iid : String} {g : Item → Item}
    (hgf : ∀ i, (g i).flattened_deps = i.flattened_deps)
    (hgid : ∀ i, (g i).id = i.id) {l : List Item}
    (h : ∀ a ∈ l, a.id = itemId → a.flattened_deps.isSome = true) :
    ∀ a ∈ updateItem iid g l, a.id = itemId →
      a.flattened_deps.isSome = true := by
  intro b hb hbid
  rw [updateItem] at hb
  rcases List.mem_map.mp hb with ⟨a, ha, heq⟩
  by_cases hai : a.id = iid
  · rw [if_pos hai] at heq
    rw [← heq] at hbid ⊢
    rw [hgf a]
    exact h a ha ((hgid a).symm.trans hbid)
  · rw [if_neg hai] at heq
    rw [← heq] at hbid ⊢
    exact h a ha hbid

theorem nodup_ids_of_statics {base cur : List Item}
    (h : cur.map Item.static = base.map Item.static)
    (hnd : (base.map (fun i => i.id)).Nodup) :
    (cur.map (fun i => i.id)).Nodup := by
  have h2 : cur.map (fun i => i.id) = base.map (fun i => i.id) := by
    have := congrArg (List.map ItemStatic.id) h
    simpa [List.map_map, Function.comp] using this
  rw [h2]
  exact hnd

theorem resolve_error_of_statics {l l' : List Item}
    (h : l.map Item.static = l'.map Item.static) {sel : String} {e : BwError}
    (he : resolve_selector sel l = .error e) :
    resolve_selector sel l' = .error e := by
  have hst := resolve_selector_statics sel h
  rw [he] at hst
  rcases hc : resolve_selector sel l' with e' | r'
  · rw [hc] at hst
    simp only [Except.map] at hst
    injection hst with hst
    rw [hst]
  · rw [hc] at hst
    simp [Except.map] at hst

theorem resolve_ok_empty_of_statics {l l' : List Item}
    (h : l.map Item.static = l'.map Item.static) {sel : String}
    {r : SelResult Item} (hr : resolve_selector sel l = .ok r)
    (hel : r.elems = []) :
    ∃ r', resolve_selector sel l' = .ok r' ∧ r'.elems = [] := by
  rcases resolve_ok_of_statics h hr with ⟨r', hr', hmap⟩
  refine ⟨r', hr', ?_⟩
  rw [hel] at hmap
  exact List.map_eq_nil_iff.mp hmap

theorem emptyRes_of_statics {base cur : List Item}
    (h : cur.map Item.static = base.map Item.static) {d : String}
    (hd : EmptyRes base d) :
    ∃ r, resolve_selector d cur = .ok r ∧ r.elems = [] := by
  obtain ⟨r, hr, hel⟩ := hd
  exact resolve_ok_empty_of_statics h.symm hr hel

theorem not_emptyRes_of_resolve_ne {base cur : List Item}
    (h : cur.map Item.static = base.map Item.static) {d : String}
    {r : SelResult Item} (hr : resolve_selector d cur = .ok r)
    (hne : r.elems.isEmpty = false) : ¬ EmptyRes base d := by
  intro hd
  rcases emptyRes_of_statics h hd with ⟨r0, hr0, hel0⟩
  rw [hr] at hr0
  injection hr0 with hr0
  rw [← hr0] at hel0
  rw [hel0] at hne
  cases hne

theorem find_item_error {iid : String} {l : List Item} {e : BwError}
    (h : find_item iid l = .error e) : e = .noSuchItem iid := by
  rw [find_item] at h
  rcases hfl : l.filter (fun item => decide (item.id = iid)) with _ | ⟨a, as⟩
  · rw [hfl] at h
    injection h with h
    exact h.symm
  · rw [hfl] at h
    cases h

theorem resolve_error_cases {sel : String} {l : List Item} {e : BwError}
    (h : resolve_selector sel l = .error e) :
    (splitSelector sel = none ∧ e = .invalidSelector sel) ∨
      ∃ s, e = .noSuchItem s := by
  rw [resolve_selector] at h
  rcases hsp : splitSelector sel with _ | ⟨t, name⟩
  · rw [hsp] at h
    injection h with h
    exact Or.inl ⟨rfl, h.symm⟩
  · rw [hsp] at h
    dsimp only at h
    by_cases hb : t = "bundle"
    · rw [if_pos hb] at h
      cases h
    · rw [if_neg hb] at h
      by_cases htag : t = "tag"
      · rw [if_pos htag] at h
        cases h
      · rw [if_neg htag] at h
        by_cases hname : name = ""
        · rw [if_pos hname] at h
          cases h
        · rw [if_neg hname] at h
          rcases hfi : find_item sel l with e' | it
          · rw [hfi] at h
            dsimp only at h
            injection h with h
            rw [← h]
            exact Or.inr ⟨sel, find_item_error hfi⟩
          · rw [hfi] at h
            cases h

theorem itemsStep_union_update (base : List Item) (itemId : String)
    (fd : List String) (cur : List Item) :
    List.Forall₂ (ItemsStep base itemId) cur
      (updateItem itemId (fun i =>
        { i with flattened_deps := some (pyUnion (i.flattened_deps.getD []) fd) })
        cur) := by
  refine forall₂_updateItem_mem itemId _ cur
    (fun x _ _ => itemsStep_refl base itemId x) (fun x hx hxid => ?_)
  exact ⟨rfl, fun hne => absurd hxid hne, fun _ => ⟨rfl, fun _ => rfl⟩⟩

theorem flatStep_to_itemsStep {base : List Item} {itemId : String} :
    ∀ {l l' : List Item}, List.Forall₂ (FlatStep base) l l' →
      (∀ a ∈ l, a.id = itemId → a.flattened_deps.isSome = true) →
      List.Forall₂ (ItemsStep base itemId) l l' := by
  intro l l' h
  induction h with
  | nil =>
    intro _
    exact List.Forall₂.nil
  | cons hab h' ih =>
    rename_i x y xs ys
    intro hmk
    refine List.Forall₂.cons ?_
      (ih (fun a ha => hmk a (List.mem_cons_of_mem _ ha)))
    refine ⟨hab.1, fun _ => hab.2, fun heq => ?_⟩
    have hxm := hmk x (List.mem_cons_self x xs) heq
    obtain ⟨hym, hdy⟩ := hab.2.1 hxm
    exact ⟨hdy, fun _ => hym⟩

theorem midStep_compose_remove {base : List Item} {itemId dep : String}
    {rest : List String} :
    ∀ {cur out : List Item},
      List.Forall₂ (MidStep base itemId rest)
        (updateItem itemId (fun i => { i with deps := pyRemove dep i.deps })
          cur) out →
      List.Forall₂ (MidStep base itemId (dep :: rest)) cur out := by
  intro cur
  induction cur with
  | nil =>
    intro out h
    cases h
    exact List.Forall₂.nil
  | cons a l ihc =>
    intro out h
    rw [updateItem_cons] at h
    cases h with
    | cons hab h' =>
      rename_i b out'
      refine List.Forall₂.cons ?_ (ihc h')
      by_cases hai : a.id = itemId
      · rw [if_pos hai] at hab
        obtain ⟨hs, _, hi⟩ := hab
        refine ⟨hs, fun hne => absurd hai hne, fun _ => ?_⟩
        obtain ⟨hsub, himp, hcount⟩ := hi hai
        refine ⟨hsub.trans (pyRemove_sub dep a.deps), himp, ?_⟩
        intro d hd hcnt
        refine hcount d hd ?_
        by_cases hddep : d = dep
        · subst hddep
          rw [List.count_cons_self] at hcnt
          have hcr := count_pyRemove_self d a.deps
          show List.count d (pyRemove d a.deps) ≤ List.count d rest
          omega
        · rw [List.count_cons_of_ne hddep] at hcnt
          show List.count d (pyRemove dep a.deps) ≤ List.count d rest
          rw [count_pyRemove_ne hddep]
          exact hcnt
      · rw [if_neg hai] at hab
        obtain ⟨hs, ho, _⟩ := hab
        exact ⟨hs, fun hne => ho hne, fun heq => absurd heq hai⟩

theorem midStep_compose_frozen {base : List Item} {itemId dep : String}
    {rest : List String} (hdep : ¬ EmptyRes base dep) {a b c : Item}
    (h1 : ItemsStep base itemId a b) (h2 : MidStep base itemId rest b c) :
    MidStep base itemId (dep :: rest) a c := by
  obtain ⟨s1, o1, i1⟩ := h1
  obtain ⟨s2, o2, i2⟩ := h2
  have hid : a.id = b.id := congrArg ItemStatic.id s1
  refine ⟨s1.trans s2, ?_, ?_⟩
  · intro hne
    have hne' : b.id ≠ itemId := by rw [← hid]; exact hne
    exact flatRest_trans (o1 hne) (o2 hne')
  · intro heq
    have heq' : b.id = itemId := by rw [← hid]; exact heq
    obtain ⟨d1, m1⟩ := i1 heq
    obtain ⟨d2, m2, c2⟩ := i2 heq'
    refine ⟨d1 ▸ d2, fun h => m2 (m1 h), ?_⟩
    intro d hd hcnt
    have hddep : d ≠ dep := fun hdd => hdep (hdd ▸ hd)
    refine c2 d hd ?_
    rw [d1]
    rw [List.count_cons_of_ne hddep] at hcnt
    exact hcnt

theorem flat_assemble {base : List Item} {itemId : String} {dl : List String}
    (hres : ∀ d ∈ dl, ∃ r, resolve_selector d base = .ok r) :
    ∀ {cur out : List Item},
      (∀ a ∈ cur, a.id = itemId →
        a.flattened_deps.isSome = false ∧ a.deps = dl) →
      List.Forall₂ (MidStep base itemId dl)
        (updateItem itemId (fun i =>
          { i with flattened_deps := some (pyUnion [] i.deps) }) cur) out →
      List.Forall₂ (FlatStep base) cur out := by
  intro cur
  induction cur with
  | nil =>
    intro out _ h
    cases h
    exact List.Forall₂.nil
  | cons a l ihc =>
    intro out hprop h
    rw [updateItem_cons] at h
    cases h with
    | cons hab h' =>
      rename_i b out'
      refine List.Forall₂.cons ?_
        (ihc (fun x hx => hprop x (List.mem_cons_of_mem _ hx)) h')
      by_cases hai : a.id = itemId
      · rw [if_pos hai] at hab
        obtain ⟨hunm, hdl⟩ := hprop a (List.mem_cons_self a l) hai
        obtain ⟨hs, _, hi⟩ := hab
        obtain ⟨hsub, himp, hcount⟩ := hi hai
        have hbm : b.flattened_deps.isSome = true := himp rfl
        refine ⟨hs, ?_, ?_, ?_⟩
        · intro ham
          rw [hunm] at ham
          cases ham
        · intro hbn
          rw [hbm] at hbn
          cases hbn
        · intro _ _
          refine ⟨?_, hsub, ?_⟩
          · intro d hd
            refine hcount d hd ?_
            show List.count d a.deps ≤ List.count d dl
            rw [hdl]
          · intro d hd
            rw [hdl] at hd
            exact hres d hd
      · rw [if_neg hai] at hab
        obtain ⟨hs, ho, _⟩ := hab
        exact ⟨hs, ho hai⟩

theorem forall₂_itemsStep_trans {base : List Item} {itemId : String}
    {l1 l2 l3 : List Item}
    (h1 : List.Forall₂ (ItemsStep base itemId) l1 l2)
    (h2 : List.Forall₂ (ItemsStep base itemId) l2 l3) :
    List.Forall₂ (ItemsStep base itemId) l1 l3 :=
  forall₂_comp
    (fun a b c (p : ItemsStep base itemId a b)
      (q : ItemsStep base itemId b c) => itemsStep_trans p q) h1 h2

theorem forall₂_flatStep_trans {base : List Item} {l1 l2 l3 : List Item}
    (h1 : List.Forall₂ (FlatStep base) l1 l2)
    (h2 : List.Forall₂ (FlatStep base) l2 l3) :
    List.Forall₂ (FlatStep base) l1 l3 :=
  forall₂_comp
    (fun a b c (p : FlatStep base a b) (q : FlatStep base b c) =>
      flatStep_trans p q) h1 h2

theorem forall₂_midStep_frozen {base : List Item} {itemId dep : String}
    {rest : List String} (hdep : ¬ EmptyRes base dep) {l1 l2 l3 : List Item}
    (h1 : List.Forall₂ (ItemsStep base itemId) l1 l2)
    (h2 : List.Forall₂ (MidStep base itemId rest) l2 l3) :
    List.Forall₂ (MidStep base itemId (dep :: rest)) l1 l3 :=
  forall₂_comp
    (fun a b c (p : ItemsStep base itemId a b)
      (q : MidStep base itemId rest b c) =>
      midStep_compose_frozen hdep p q) h1 h2

theorem processDepItems_cont {base : List Item} {f : Nat} {itemId : String}
    {rest : List String}
    (ih : ∀ cur2 : List Item,
      cur2.map Item.static = base.map Item.static →
      DepsBounded base cur2 →
      (∀ a ∈ cur2, a.id = itemId → a.flattened_deps.isSome = true) →
      unflat cur2 ≤ f →
      (∀ out,
        processDepItems (flatten_deps_for_item f) itemId rest cur2 = .ok out →
        List.Forall₂ (ItemsStep base itemId) cur2 out) ∧
      (∀ e,
        processDepItems (flatten_deps_for_item f) itemId rest cur2 = .error e →
        IsMissing base e))
    {cur cur1 : List Item}
    (hpre : List.Forall₂ (ItemsStep base itemId) cur cur1)
    (hst : cur.map Item.static = base.map Item.static)
    (hdb : DepsBounded base cur)
    (hmk : ∀ a ∈ cur, a.id = itemId → a.flattened_deps.isSome = true)
    (hfl : unflat cur ≤ f) :
    (∀ out, processDepItems (flatten_deps_for_item f) itemId rest cur1 = .ok out →
      List.Forall₂ (ItemsStep base itemId) cur out) ∧
    (∀ e, processDepItems (flatten_deps_for_item f) itemId rest cur1 = .error e →
      IsMissing base e) := by
  have hst1 : cur1.map Item.static = base.map Item.static :=
    (forall₂_statics_of (fun a b h => h.1) hpre).symm.trans hst
  have hdb1 := depsBounded_of_forall₂ (fun a b h => h.1)
    (fun a b h => itemsStep_deps_sub h) hpre hdb
  have hmk1 := mark_all_of_forall₂ (fun a b h => h.1)
    (fun a b h => itemsStep_mark a b h) hpre hmk
  have hfl1 :=
    (unflat_le_of_forall₂ (fun a b h => itemsStep_mark a b h) hpre).trans hfl
  refine ⟨?_, (ih cur1 hst1 hdb1 hmk1 hfl1).2⟩
  intro out hok
  exact forall₂_itemsStep_trans hpre ((ih cur1 hst1 hdb1 hmk1 hfl1).1 out hok)

theorem processDepItems_spec {base : List Item} {f : Nat}
    (hF : FlatSpec base f) (itemId : String) :
    ∀ (ids : List String) (cur : List Item),
      cur.map Item.static = base.map Item.static →
      DepsBounded base cur →
      (∀ a ∈ cur, a.id = itemId → a.flattened_deps.isSome = true) →
      unflat cur ≤ f →
      (∀ out,
        processDepItems (flatten_deps_for_item f) itemId ids cur = .ok out →
        List.Forall₂ (ItemsStep base itemId) cur out) ∧
      (∀ e,
        processDepItems (flatten_deps_for_item f) itemId ids cur = .error e →
        IsMissing base e) := by
  intro ids
  induction ids with
  | nil =>
    intro cur hst hdb hmk hfl
    have h0 : processDepItems (flatten_deps_for_item f) itemId [] cur
        = .ok cur := rfl
    constructor
    · intro out hok
      rw [h0] at hok
      injection hok with hok
      rw [← hok]
      exact List.forall₂_same.mpr (fun x _ => itemsStep_refl base itemId x)
    · intro e he
      rw [h0] at he
      cases he
  | cons depId rest ih =>
    intro cur hst hdb hmk hfl
    have hunfold :
        processDepItems (flatten_deps_for_item f) itemId (depId :: rest) cur
        = match (match getItem cur depId with
            | none => Except.ok cur
            | some depItem =>
              if depItem.flattened_deps.isNone then
                flatten_deps_for_item f depId cur
              else Except.ok cur) with
          | .error e => .error e
          | .ok items1 =>
            processDepItems (flatten_deps_for_item f) itemId rest
              (updateItem itemId (fun i =>
                { i with flattened_deps := some (pyUnion (i.flattened_deps.getD []) ((((getItem items1 depId).map (fun i => i.flattened_deps)).getD none).getD [])) })
                items1) := rfl
    rcases hg : getItem cur depId with _ | depItem
    · rw [hg] at hunfold
      dsimp only at hunfold
      have hcont := processDepItems_cont ih
        (itemsStep_union_update base itemId
          ((((getItem cur depId).map (fun i => i.flattened_deps)).getD
            none).getD []) cur) hst hdb hmk hfl
      constructor
      · intro out hok
        rw [hunfold] at hok
        exact hcont.1 out hok
      · intro e he
        rw [hunfold] at he
        exact hcont.2 e he
    · rw [hg] at hunfold
      dsimp only at hunfold
      by_cases hdm : depItem.flattened_deps.isNone = true
      · rw [if_pos hdm] at hunfold
        have hdunm : depItem.flattened_deps.isSome = false :=
          isSome_eq_false_of_isNone hdm
        have hFS := hF depId cur depItem hst hdb hg hdunm hfl
        rcases hflat : flatten_deps_for_item f depId cur with e0 | items1
        · rw [hflat] at hunfold
          dsimp only at hunfold
          constructor
          · intro out hok
            rw [hunfold] at hok
            cases hok
          · intro e he
            rw [hunfold] at he
            injection he with he
            rw [← he]
            exact hFS.2 e0 hflat
        · rw [hflat] at hunfold
          dsimp only at hunfold
          have hrel1 := (hFS.1 items1 hflat).1
          have hpre := forall₂_itemsStep_trans
            (flatStep_to_itemsStep hrel1 hmk)
            (itemsStep_union_update base itemId
              ((((getItem items1 depId).map (fun i => i.flattened_deps)).getD
                none).getD []) items1)
          have hcont := processDepItems_cont ih hpre hst hdb hmk hfl
          constructor
          · intro out hok
            rw [hunfold] at hok
            exact hcont.1 out hok
          · intro e he
            rw [hunfold] at he
            exact hcont.2 e he
      · rw [if_neg hdm] at hunfold
        dsimp only at hunfold
        have hcont := processDepItems_cont ih
          (itemsStep_union_update base itemId
            ((((getItem cur depId).map (fun i => i.flattened_deps)).getD
              none).getD []) cur) hst hdb hmk hfl
        constructor
        · intro out hok
          rw [hunfold] at hok
          exact hcont.1 out hok
        · intro e he
          rw [hunfold] at he
          exact hcont.2 e he

theorem processDeps_spec {base : List Item} {f : Nat}
    (hF : FlatSpec base f) (itemId : String)
    (hval : ∀ g ∈ base, ∀ d ∈ g.deps, (splitSelector d).isSome = true) :
    ∀ (dl : List String) (cur : List Item),
      cur.map Item.static = base.map Item.static →
      DepsBounded base cur →
      (∀ a ∈ cur, a.id = itemId → a.flattened_deps.isSome = true) →
      unflat cur ≤ f →
      (∀ d ∈ dl, ∃ g ∈ base, d ∈ g.deps) →
      (∀ out, processDeps (flatten_deps_for_item f) itemId dl cur = .ok out →
        List.Forall₂ (MidStep base itemId dl) cur out ∧
        ∀ d ∈ dl, ∃ r, resolve_selector d base = .ok r) ∧
      (∀ e, processDeps (flatten_deps_for_item f) itemId dl cur = .error e →
        IsMissing base e) := by
  intro dl
  induction dl with
  | nil =>
    intro cur hst hdb hmk hfl hdm
    have h0 : processDeps (flatten_deps_for_item f) itemId [] cur
        = .ok (updateItem itemId (fun i =>
          { i with flattened_deps := some (pySort strLe (i.flattened_deps.getD [])) })
          cur) := rfl
    constructor
    · intro out hok
      rw [h0] at hok
      injection hok with hok
      refine ⟨?_, fun d hd => absurd hd (List.not_mem_nil d)⟩
      rw [← hok]
      refine forall₂_updateItem_mem itemId _ cur (fun x _ hne => ?_)
        (fun x hx hxid => ?_)
      · exact ⟨rfl, fun _ => flatRest_refl base x, fun heq => absurd heq hne⟩
      · refine ⟨rfl, fun hne => absurd hxid hne, fun _ => ?_⟩
        refine ⟨List.Subset.refl _, fun _ => rfl, ?_⟩
        intro d hd hcnt
        have hz : List.count d x.deps = 0 := Nat.le_zero.mp (by simpa using hcnt)
        exact List.count_eq_zero.mp hz
    · intro e he
      rw [h0] at he
      cases he
  | cons dep rest ih =>
    intro cur hst hdb hmk hfl hdm
    have hunfold : processDeps (flatten_deps_for_item f) itemId (dep :: rest) cur
        = match resolve_selector dep cur with
          | .error (.noSuchItem _) => .error (.itemDependencyError itemId dep)
          | .error e => .error e
          | .ok r =>
            if r.elems.isEmpty then
              processDeps (flatten_deps_for_item f) itemId rest
                (updateItem itemId (fun i => { i with deps := pyRemove dep i.deps }) cur)
            else
              match processDepItems (flatten_deps_for_item f) itemId
                  (r.elemsAfterList.map (fun i => i.id)) cur with
              | .error e => .error e
              | .ok items2 =>
                processDeps (flatten_deps_for_item f) itemId rest items2 := rfl
    rcases hrs : resolve_selector dep cur with e0 | r
    · rcases resolve_error_cases hrs with ⟨hspl, he0⟩ | ⟨s, he0⟩
      · exfalso
        rcases hdm dep (List.mem_cons_self dep rest) with ⟨g, hg, hdg⟩
        have hv := hval g hg dep hdg
        rw [hspl] at hv
        cases hv
      · subst he0
        rw [hrs] at hunfold
        dsimp only at hunfold
        constructor
        · intro out hok
          rw [hunfold] at hok
          cases hok
        · intro e he
          rw [hunfold] at he
          injection he with he
          rcases hdm dep (List.mem_cons_self dep rest) with ⟨g, hg, hdg⟩
          exact ⟨itemId, dep, s, g, he.symm, hg, hdg,
            resolve_error_of_statics hst hrs⟩
    · rw [hrs] at hunfold
      dsimp only at hunfold
      by_cases hemp : r.elems.isEmpty = true
      · rw [if_pos hemp] at hunfold
        have hst' : (updateItem itemId
            (fun i => { i with deps := pyRemove dep i.deps }) cur).map Item.static
            = base.map Item.static := by
          refine (statics_updateItem ?_ cur).trans hst
          intro i
          rfl
        have hdb' : DepsBounded base (updateItem itemId
            (fun i => { i with deps := pyRemove dep i.deps }) cur) := by
          refine depsBounded_updateItem ?_ ?_ hdb
          · intro i
            exact pyRemove_sub dep i.deps
          · intro i
            rfl
        have hmk' : ∀ a ∈ updateItem itemId
            (fun i => { i with deps := pyRemove dep i.deps }) cur,
            a.id = itemId → a.flattened_deps.isSome = true := by
          refine mark_all_updateItem ?_ ?_ hmk
          · intro i
            rfl
          · intro i
            rfl
        have hfl' : unflat (updateItem itemId
            (fun i => { i with deps := pyRemove dep i.deps }) cur) ≤ f := by
          have hcongr : unflat (updateItem itemId
              (fun i => { i with deps := pyRemove dep i.deps }) cur)
              = unflat cur := by
            refine unflat_updateItem_congr ?_ cur
            intro i
            rfl
          rw [hcongr]
          exact hfl
        have hdm' : ∀ d ∈ rest, ∃ g ∈ base, d ∈ g.deps :=
          fun d hd => hdm d (List.mem_cons_of_mem _ hd)
        have hih := ih _ hst' hdb' hmk' hfl' hdm'
        constructor
        · intro out hok
          rw [hunfold] at hok
          rcases hih.1 out hok with ⟨h12, hres⟩
          refine ⟨midStep_compose_remove h12, ?_⟩
          intro d hd
          rcases List.mem_cons.mp hd with rfl | hd'
          · rcases resolve_ok_of_statics hst hrs with ⟨r', hr', _⟩
            exact ⟨r', hr'⟩
          · exact hres d hd'
        · intro e he
          rw [hunfold] at he
          exact hih.2 e he
      · rw [if_neg hemp] at hunfold
        have hempf : r.elems.isEmpty = false := by
          revert hemp
          cases r.elems.isEmpty
          · intro _
            rfl
          · intro h2
            exact absurd rfl h2
        have hdep2 : ¬ EmptyRes base dep :=
          not_emptyRes_of_resolve_ne hst hrs hempf
        have hPDI := processDepItems_spec hF itemId
          (r.elemsAfterList.map (fun i => i.id)) cur hst hdb hmk hfl
        rcases hpi : processDepItems (flatten_deps_for_item f) itemId
            (r.elemsAfterList.map (fun i => i.id)) cur with e1 | items2
        · rw [hpi] at hunfold
          dsimp only at hunfold
          constructor
          · intro out hok
            rw [hunfold] at hok
            cases hok
          · intro e he
            rw [hunfold] at he
            injection he with he
            rw [← he]
            exact hPDI.2 e1 hpi
        · rw [hpi] at hunfold
          dsimp only at hunfold
          have h02 := hPDI.1 items2 hpi
          have hst2 : items2.map Item.static = base.map Item.static :=
            (forall₂_statics_of (fun a b h => h.1) h02).symm.trans hst
          have hdb2 := depsBounded_of_forall₂ (fun a b h => h.1)
            (fun a b h => itemsStep_deps_sub h) h02 hdb
          have hmk2 := mark_all_of_forall₂ (fun a b h => h.1)
            (fun a b h => itemsStep_mark a b h) h02 hmk
          have hfl2 :=
            (unflat_le_of_forall₂ (fun a b h => itemsStep_mark a b h) h02).trans hfl
          have hdm2 : ∀ d ∈ rest, ∃ g ∈ base, d ∈ g.deps :=
            fun d hd => hdm d (List.mem_cons_of_mem _ hd)
          have hih := ih items2 hst2 hdb2 hmk2 hfl2 hdm2
          constructor
          · intro out hok
            rw [hunfold] at hok
            rcases hih.1 out hok with ⟨h23, hres⟩
            refine ⟨forall₂_midStep_frozen hdep2 h02 h23, ?_⟩
            intro d hd
            rcases List.mem_cons.mp hd with rfl | hd'
            · rcases resolve_ok_of_statics hst hrs with ⟨r', hr', _⟩
              exact ⟨r', hr'⟩
            · exact hres d hd'
          · intro e he
            rw [hunfold] at he
            exact hih.2 e he

theorem flatSpec_all (base : List Item)
    (hnd : (base.map (fun i => i.id)).Nodup)
    (hval : ∀ g ∈ base, ∀ d ∈ g.deps, (splitSelector d).isSome = true) :
    ∀ f, FlatSpec base f := by
  intro f
  induction f with
  | zero =>
    intro id cur it hst hdb hget hunm hfuel
    have hmem : it ∈ cur := getItem_mem hget
    have hpos := unflat_pos_of_mem hmem hunm
    exact absurd hfuel (by omega)
  | succ f ihf =>
    intro id cur it hst hdb hget hunm hfuel
    have hunfold : flatten_deps_for_item (f + 1) id cur
        = match getItem cur id with
          | none => .error .outOfFuel
          | some it2 =>
            processDeps (flatten_deps_for_item f) id it2.deps
              (updateItem id (fun i =>
                { i with flattened_deps := some (pyUnion [] i.deps) }) cur) := rfl
    rw [hget] at hunfold
    dsimp only at hunfold
    have hitid : it.id = id := getItem_id hget
    have hmem : it ∈ cur := getItem_mem hget
    have hst1 : (updateItem id (fun i =>
        { i with flattened_deps := some (pyUnion [] i.deps) }) cur).map
        Item.static = base.map Item.static := by
      refine (statics_updateItem ?_ cur).trans hst
      intro i
      rfl
    have hdb1 : DepsBounded base (updateItem id (fun i =>
        { i with flattened_deps := some (pyUnion [] i.deps) }) cur) := by
      refine depsBounded_updateItem ?_ ?_ hdb
      · intro i
        exact List.Subset.refl _
      · intro i
        rfl
    have hmk1 : ∀ a ∈ updateItem id (fun i =>
        { i with flattened_deps := some (pyUnion [] i.deps) }) cur,
        a.id = id → a.flattened_deps.isSome = true := by
      intro a ha haid
      rw [updateItem] at ha
      rcases List.mem_map.mp ha with ⟨x, hx, heq⟩
      by_cases hxi : x.id = id
      · rw [if_pos hxi] at heq
        rw [← heq]
        rfl
      · rw [if_neg hxi] at heq
        rw [← heq] at haid
        exact absurd haid hxi
    have hfl1 : unflat (updateItem id (fun i =>
        { i with flattened_deps := some (pyUnion [] i.deps) }) cur) ≤ f := by
      have hlt : unflat (updateItem id (fun i =>
          { i with flattened_deps := some (pyUnion [] i.deps) }) cur) + 1
          ≤ unflat cur := by
        refine unflat_updateItem_mark ?_ hmem hitid hunm
        intro i
        rfl
      omega
    have hdm : ∀ d ∈ it.deps, ∃ g ∈ base, d ∈ g.deps := by
      intro d hd
      have hstm : it.static ∈ base.map Item.static := by
        rw [← hst]
        exact List.mem_map.mpr ⟨it, hmem, rfl⟩
      rcases List.mem_map.mp hstm with ⟨g, hg, hgs⟩
      have hgid : g.id = it.id := congrArg ItemStatic.id hgs
      exact ⟨g, hg, hdb it hmem g hg hgid hd⟩
    have hPD := processDeps_spec ihf id hval it.deps
      (updateItem id (fun i =>
        { i with flattened_deps := some (pyUnion [] i.deps) }) cur)
      hst1 hdb1 hmk1 hfl1 hdm
    constructor
    · intro out hok
      rw [hunfold] at hok
      rcases hPD.1 out hok with ⟨hmid, hresolve⟩
      have hndc : (cur.map (fun i => i.id)).Nodup := nodup_ids_of_statics hst hnd
      have hcurprop : ∀ a ∈ cur, a.id = id →
          a.flattened_deps.isSome = false ∧ a.deps = it.deps := by
        intro a ha haid
        have hga : getItem cur a.id = some a := getItem_of_nodup cur hndc a ha
        rw [haid, hget] at hga
        injection hga with hga
        rw [← hga]
        exact ⟨hunm, rfl⟩
      refine ⟨flat_assemble hresolve hcurprop hmid, ?_⟩
      intro E hE
      have hEid : E.id = id := getItem_id hE
      have hEmem : E ∈ out := getItem_mem hE
      rcases forall₂_mem_right hmid E hEmem with ⟨a1, ha1, hrel⟩
      have ha1id : a1.id = E.id := congrArg ItemStatic.id hrel.1
      have ha1m : a1.flattened_deps.isSome = true :=
        hmk1 a1 ha1 (ha1id.trans hEid)
      exact (hrel.2.2 (ha1id.trans hEid)).2.1 ha1m
    · intro e he
      rw [hunfold] at he
      exact hPD.2 e he

theorem flatten_items_loop_spec (base : List Item)
    (hnd : (base.map (fun i => i.id)).Nodup)
    (hval : ∀ g ∈ base, ∀ d ∈ g.deps, (splitSelector d).isSome = true)
    (fuel : Nat) :
    ∀ (ids : List String) (cur : List Item),
      cur.map Item.static = base.map Item.static →
      DepsBounded base cur →
      unflat cur ≤ fuel →
      (∀ out, flatten_items_loop fuel ids cur = .ok out →
        List.Forall₂ (FlatStep base) cur out ∧
        ∀ iid ∈ ids, ∀ E, getItem out iid = some E →
          E.flattened_deps.isSome = true) ∧
      (∀ e, flatten_items_loop fuel ids cur = .error e → IsMissing base e) := by
  intro ids
  induction ids with
  | nil =>
    intro cur hst hdb hfl
    have h0 : flatten_items_loop fuel [] cur = .ok cur := rfl
    constructor
    · intro out hok
      rw [h0] at hok
      injection hok with hok
      rw [← hok]
      exact ⟨List.forall₂_same.mpr (fun x _ => flatStep_refl base x),
        fun iid hiid => absurd hiid (List.not_mem_nil iid)⟩
    · intro e he
      rw [h0] at he
      cases he
  | cons iid rest ihl =>
    intro cur hst hdb hfl
    have hunfold : flatten_items_loop fuel (iid :: rest) cur
        = match getItem cur iid with
          | none => flatten_items_loop fuel rest cur
          | some it =>
            if it.flattened_deps.isNone then
              match flatten_deps_for_item fuel iid cur with
              | .error e => .error e
              | .ok items' => flatten_items_loop fuel rest items'
            else flatten_items_loop fuel rest cur := rfl
    rcases hg : getItem cur iid with _ | it
    · rw [hg] at hunfold
      dsimp only at hunfold
      constructor
      · intro out hok
        rw [hunfold] at hok
        rcases (ihl cur hst hdb hfl).1 out hok with ⟨hrel, hmarked⟩
        refine ⟨hrel, ?_⟩
        intro j hj E hE
        rcases List.mem_cons.mp hj with rfl | hj'
        · have hnone : getItem out j = none :=
            forall₂_getItem_none_of (fun a b h => h.1) j hrel hg
          rw [hnone] at hE
          cases hE
        · exact hmarked j hj' E hE
      · intro e he
        rw [hunfold] at he
        exact (ihl cur hst hdb hfl).2 e he
    · rw [hg] at hunfold
      dsimp only at hunfold
      by_cases hitn : it.flattened_deps.isNone = true
      · rw [if_pos hitn] at hunfold
        have hitu : it.flattened_deps.isSome = false :=
          isSome_eq_false_of_isNone hitn
        have hFS := flatSpec_all base hnd hval fuel iid cur it hst hdb hg hitu hfl
        rcases hfi : flatten_deps_for_item fuel iid cur with e0 | mid
        · rw [hfi] at hunfold
          dsimp only at hunfold
          constructor
          · intro out hok
            rw [hunfold] at hok
            cases hok
          · intro e he
            rw [hunfold] at he
            injection he with he
            rw [← he]
            exact hFS.2 e0 hfi
        · rw [hfi] at hunfold
          dsimp only at hunfold
          rcases hFS.1 mid hfi with ⟨hrel1, hmark1⟩
          have hstm : mid.map Item.static = base.map Item.static :=
            (forall₂_statics_of (fun a b h => h.1) hrel1).symm.trans hst
          have hdbm := depsBounded_of_forall₂ (fun a b h => h.1)
            (fun a b h => flatStep_deps_sub h) hrel1 hdb
          have hflm :=
            (unflat_le_of_forall₂ (fun a b h => flatStep_mark a b h) hrel1).trans
              hfl
          constructor
          · intro out hok
            rw [hunfold] at hok
            rcases (ihl mid hstm hdbm hflm).1 out hok with ⟨hrel2, hmark2⟩
            refine ⟨forall₂_flatStep_trans hrel1 hrel2, ?_⟩
            intro j hj E hE
            rcases List.mem_cons.mp hj with rfl | hj'
            · rcases hgm : getItem mid j with _ | Em
              · have hnone : getItem out j = none :=
                  forall₂_getItem_none_of (fun a b h => h.1) j hrel2 hgm
                rw [hnone] at hE
                cases hE
              · have hEmFlag := hmark1 Em hgm
                rcases forall₂_getItem_of (fun a b h => h.1) j hrel2 Em hgm
                  with ⟨E', hE', hrelE⟩
                rw [hE] at hE'
                injection hE' with hE'
                rw [hE']
                exact flatStep_mark _ _ hrelE hEmFlag
            · exact hmark2 j hj' E hE
          · intro e he
            rw [hunfold] at he
            exact (ihl mid hstm hdbm hflm).2 e he
      · rw [if_neg hitn] at hunfold
        constructor
        · intro out hok
          rw [hunfold] at hok
          rcases (ihl cur hst hdb hfl).1 out hok with ⟨hrel, hmarked⟩
          refine ⟨hrel, ?_⟩
          intro j hj E hE
          rcases List.mem_cons.mp hj with rfl | hj'
          · have hitm : it.flattened_deps.isSome = true := by
              revert hitn
              cases ho : it.flattened_deps
              · intro h2
                exact absurd rfl h2
              · intro _
                rfl
            rcases forall₂_getItem_of (fun a b h => h.1) j hrel it hg
              with ⟨E', hE', hrelE⟩
            rw [hE] at hE'
            injection hE' with hE'
            rw [hE']
            exact flatStep_mark _ _ hrelE hitm
          · exact hmarked j hj' E hE
        · intro e he
          rw [hunfold] at he
          exact (ihl cur hst hdb hfl).2 e he

/-- C9: during dependency flattening — for item lists with unique ids,
no `_flattened_deps` set yet, and well-formed selectors in every
`_deps` — (1) when `_flatten_dependencies` succeeds, every selector that
resolves to zero items is absent from every result item's `_deps`, and
every original `_deps` entry resolved without error; (2) when no `_deps`
entry names a non-existent single item, the pass raises no error at
all; (3) when some `_deps` entry names a non-existent single item, the
pass fails with an `ItemDependencyError` whose selector names a
non-existent single item. -/
theorem C9_selector_drop (items out : List Item)
    (hnd : (items.map (fun i => i.id)).Nodup)
    (hun : ∀ i ∈ items, i.flattened_deps = none)
    (hval : ∀ i ∈ items, ∀ d ∈ i.deps, (splitSelector d).isSome = true) :
    (flatten_dependencies items = .ok out →
      ∀ i ∈ items, ∀ j ∈ out, j.id = i.id →
        (∀ d, EmptyRes items d → d ∉ j.deps) ∧
        (∀ d ∈ i.deps, ∃ r, resolve_selector d items = .ok r)) ∧
    ((∀ i ∈ items, ∀ d ∈ i.deps, ∀ s,
        resolve_selector d items ≠ .error (.noSuchItem s)) →
      ∃ out2, flatten_dependencies items = .ok out2) ∧
    ((∃ i ∈ items, ∃ d ∈ i.deps, ∃ s,
        resolve_selector d items = .error (.noSuchItem s)) →
      ∃ iid d s, flatten_dependencies items = .error (.itemDependencyError iid d) ∧
        resolve_selector d items = .error (.noSuchItem s)) := by
  have hdb0 : DepsBounded items items := by
    intro a ha g hg hgid
    have hga : getItem items a.id = some a := getItem_of_nodup items hnd a ha
    have hgg : getItem items g.id = some g := getItem_of_nodup items hnd g hg
    rw [hgid, hga] at hgg
    injection hgg with hgg
    rw [hgg]
    exact List.Subset.refl _
  have hfl0 : unflat items ≤ items.length + 1 := by
    rw [unflat]
    exact (List.countP_le_length _).trans (Nat.le_succ _)
  have hls := flatten_items_loop_spec items hnd hval (items.length + 1)
    (items.map (fun i => i.id)) items rfl hdb0 hfl0
  have key : ∀ mid, flatten_items_loop (items.length + 1)
      (items.map (fun i => i.id)) items = .ok mid →
      ∀ i ∈ items, ∃ b, getItem mid i.id = some b ∧ FlatStep items i b ∧
        b.flattened_deps.isSome = true := by
    intro mid hloop i hi
    rcases hls.1 mid hloop with ⟨hrel, hmarked⟩
    rcases forall₂_getItem_of (fun a b h => h.1) i.id hrel i
      (getItem_of_nodup items hnd i hi) with ⟨b, hb, hrelb⟩
    exact ⟨b, hb, hrelb, hmarked i.id (List.mem_map.mpr ⟨i, hi, rfl⟩) b hb⟩
  refine ⟨?_, ?_, ?_⟩
  · intro hok i hi j hj hjid
    rw [flatten_dependencies] at hok
    rcases hloop : flatten_items_loop (items.length + 1)
        (items.map (fun i => i.id)) items with e | mid
    · rw [hloop] at hok
      cases hok
    · rw [hloop] at hok
      injection hok with hok
      rcases key mid hloop i hi with ⟨b, hb, hrelb, hbm⟩
      rw [← hok] at hj
      rw [compute_incoming] at hj
      rcases List.mem_map.mp hj with ⟨m, hm, hmeq⟩
      have hjd : j.deps = m.deps := by rw [← hmeq]
      have hjid2 : j.id = m.id := by rw [← hmeq]
      have hndmid : (mid.map (fun i => i.id)).Nodup :=
        nodup_ids_of_statics
          (forall₂_statics_of (fun a b h => h.1) (hls.1 mid hloop).1).symm hnd
      have hgm : getItem mid m.id = some m := getItem_of_nodup mid hndmid m hm
      have hmid_i : m.id = i.id := hjid2.symm.trans hjid
      rw [hmid_i, hb] at hgm
      injection hgm with hgm
      have hunmi : i.flattened_deps.isSome = false := by
        rw [hun i hi]
        rfl
      obtain ⟨hne, hsub, hres⟩ := hrelb.2.2.2 hunmi hbm
      constructor
      · intro d hd
        rw [hjd, ← hgm]
        exact hne d hd
      · exact hres
  · intro hnomiss
    rcases hfd : flatten_dependencies items with e | out2
    · exfalso
      rw [flatten_dependencies] at hfd
      rcases hloop : flatten_items_loop (items.length + 1)
          (items.map (fun i => i.id)) items with e' | mid
      · rw [hloop] at hfd
        injection hfd with hfd
        rcases hls.2 e' hloop with ⟨i1, d1, s1, g1, he1, hg1, hd1, hres1⟩
        exact hnomiss g1 hg1 d1 hd1 s1 hres1
      · rw [hloop] at hfd
        cases hfd
    · exact ⟨out2, rfl⟩
  · rintro ⟨i0, hi0, d0, hd0, s0, hmiss⟩
    rcases hfd : flatten_dependencies items with e | out2
    · have hfd0 := hfd
      rw [flatten_dependencies] at hfd
      rcases hloop : flatten_items_loop (items.length + 1)
          (items.map (fun i => i.id)) items with e' | mid
      · rw [hloop] at hfd
        injection hfd with hfd
        rcases hls.2 e' hloop with ⟨i1, d1, s1, g1, he1, hg1, hd1, hres1⟩
        have hee : e = .itemDependencyError i1 d1 := by
          rw [← hfd]
          exact he1
        refine ⟨i1, d1, s1, ?_, hres1⟩
        rw [hee]
      · rw [hloop] at hfd
        cases hfd
    · exfalso
      rw [flatten_dependencies] at hfd
      rcases hloop : flatten_items_loop (items.length + 1)
          (items.map (fun i => i.id)) items with e' | mid
      · rw [hloop] at hfd
        cases hfd
      · rcases key mid hloop i0 hi0 with ⟨b, hb, hrelb, hbm⟩
        have hunmi : i0.flattened_deps.isSome = false := by
          rw [hun i0 hi0]
          rfl
        obtain ⟨_, _, hres⟩ := hrelb.2.2.2 hunmi hbm
        rcases hres d0 hd0 with ⟨r, hr⟩
        rw [hmiss] at hr
        cases hr

/-- C9 (witness): the theorem applied to a one-item list whose only dep
is `tag:nonexistent` — the selector resolves to zero items, the pass
succeeds and the final `_deps` is empty — and to a one-item list whose
only dep names the non-existent single item `pkg:absent`, which makes
the pass fail with `ItemDependencyError`. -/
theorem C9_selector_drop_witness :
    ("tag:nonexistent" ∉ c9dropped.deps) ∧
    (∃ iid d s,
      flatten_dependencies [c9missing] = .error (.itemDependencyError iid d) ∧
      resolve_selector d [c9missing] = .error (.noSuchItem s)) := by
  constructor
  · have h := (C9_selector_drop [c9item] [c9dropped] (by decide) (by decide)
      (by decide)).1 rfl c9item (by decide) c9dropped (by decide) rfl
    exact h.1 "tag:nonexistent" ⟨.iter [], rfl, rfl⟩
  · exact (C9_selector_drop [c9missing] [] (by decide) (by decide)
      (by decide)).2.2 ⟨c9missing, by decide, "pkg:absent", by decide,
        "pkg:absent", rfl⟩

end Bundlewrap
